import Mathlib

/-!
Shallow embedding of the `rufus` web crawler (src/rufus/crawler.py and the
relevance filter of src/rufus/parser.py), together with proofs about the
claims of its specification.

The embedding has three parts:

* a model of the retry loop of `Crawler._crawl_recursive` (the
  `for attempt in range(self.max_retries)` loop), driven by an oracle that
  gives the response to each HTTP GET attempt;

* a model of `Crawler.extract_content` and of the text assembled by
  `InstructionParser.is_relevant`, over a model of the BeautifulSoup parse
  of a page body;

* a small-step interleaving semantics of a whole `Crawler.crawl`
  invocation: the shared mutable state (`visited_urls`, the `pages` dict,
  the executor queue and its shutdown flag) is a `Config`, each worker
  thread executing `_crawl_recursive` is a `Worker` with a program counter
  (`WorkerPhase`) through its shared-state-touching atomic steps, and a
  schedule (a list of choices) resolves the interleaving.
-/

namespace Rufus

/-! ## Network responses and the retry loop of `_crawl_recursive` -/

/-- One possible outcome of a single `requests.get` attempt inside
`Crawler._crawl_recursive`: a successful response with a body, a 404
response, or a transient failure (timeout, connection error, or any other
4xx/5xx status, which `raise_for_status` turns into a
`requests.exceptions.RequestException`). -/
inductive Resp where
  | ok (body : String)
  | notFound
  | err
deriving DecidableEq, Repr

/-- The retry loop of `Crawler._crawl_recursive` (crawler.py lines
156-176).  `for attempt in range(max_retries)` issues one GET per
iteration; a 404 returns immediately storing nothing; any other error is
caught and the loop retries after a backoff sleep; a success stores the
body and returns.  `oracle i` is the response to the i-th GET issued for
this URL, `fuel` is the number of loop iterations left, and `k` is the
index of the next attempt.  The result is the body stored in `pages` (if
any), paired with the number of GET requests issued. -/
def fetchLoop (oracle : Nat → Resp) : Nat → Nat → Option String × Nat
  | 0, _ => (none, 0)
  | fuel + 1, k =>
    match oracle k with
    | .ok b => (some b, 1)
    | .notFound => (none, 1)
    | .err =>
      let r := fetchLoop oracle fuel (k + 1)
      (r.1, r.2 + 1)

/-- The whole retry loop, started at attempt 0 with `max_retries` fuel. -/
def fetchResult (oracle : Nat → Resp) (maxRetries : Nat) : Option String × Nat :=
  fetchLoop oracle maxRetries 0

/-! ## `extract_content` and the relevance text of `is_relevant` -/

/-- Model of the BeautifulSoup parse (`BeautifulSoup(html, 'html.parser')`)
of a page body, as consumed by `Crawler.extract_content`.  `title` is
`none` when the document has no title tag, and `some none` when a title
tag is present but its `.string` attribute is `None` (as BeautifulSoup
yields for an empty title tag or one with more than one child); `some
(some s)` means `.string` is the text `s`.  `headings` are the
`get_text(strip=True)` values of the h1/h2/h3 tags in document order,
`paragraphTexts` those of the p tags, and `hrefs` the raw href attribute
values of the a tags that carry one. -/
structure Soup where
  title : Option (Option String)
  headings : List String
  paragraphTexts : List String
  hrefs : List String
deriving DecidableEq, Repr

/-- A value stored in the content dictionary built by `extract_content`:
either a single string (the title) or a list of strings. -/
inductive PyVal where
  | str (s : String)
  | strList (l : List String)
deriving DecidableEq, Repr

/-- The dictionary returned by `Crawler.extract_content`, as an association
list over its literal string keys. -/
def ContentDict := List (String × PyVal)

/-- The dictionary literal of `Crawler.extract_content` (crawler.py lines
82-87), given the already-stripped title text `t`.  Note the key
`'paragraph'` (singular). -/
def contentEntries (t : String) (soup : Soup) : ContentDict :=
  [("title", PyVal.str t),
   ("headings", PyVal.strList soup.headings),
   ("paragraph", PyVal.strList soup.paragraphTexts),
   ("links", PyVal.strList soup.hrefs)]

/-- Model of `Crawler.extract_content` (crawler.py lines 69-88).  The title entry is
`soup.title.string.strip() if soup.title else ''`: when a title tag is
present but its `.string` is `None`, the attribute access `.strip()` on
`None` raises an `AttributeError`, modelled as the error case. -/
def extract_content (soup : Soup) : Except String ContentDict :=
  match soup.title with
  | none => .ok (contentEntries "" soup)
  | some none => .error "AttributeError: NoneType object has no attribute strip"
  | some (some s) => .ok (contentEntries s.trim soup)

/-- Model of `content.get(key, [])` as used by `InstructionParser.is_relevant`: look
the key up in the dictionary and default to the empty list when it is
absent.  (A non-list value under the key would be concatenated by the
Python code only erroneously; no list key of the extractor holds one, and
the model collapses that case to the default.) -/
def getList (content : ContentDict) (key : String) : List String :=
  match List.lookup key content with
  | some (PyVal.strList l) => l
  | _ => []

/-- The text pieces joined by `InstructionParser.is_relevant` (parser.py
line 108): `content.get('headings', []) + content.get('paragraphs', [])`,
looked up with the plural key `'paragraphs'`. -/
def relevanceParts (content : ContentDict) : List String :=
  getList content "headings" ++ getList content "paragraphs"

/-- The join `' '.join(...)` of the relevance parts, the `text_content` value of
`InstructionParser.is_relevant`. -/
def relevanceText (content : ContentDict) : String :=
  String.intercalate " " (relevanceParts content)

/-! ## URL handling: `urlparse(...).netloc` and `urljoin`

The crawler resolves raw hrefs with `urljoin(base_url, href)` and compares
`urlparse(base_url).netloc == urlparse(next_url).netloc`.  These come from
`urllib.parse`, which is not part of this repository; the two functions
below model its behaviour (RFC 3986 reference resolution) for absolute
http(s)-style bases and the href forms exercised here.  Dot-segment
normalization and query/params splitting are not modelled. -/

/-- Split a character list at the first occurrence of `://` into the part
before (the scheme) and the part after, or `none` when no `://` occurs (a
relative reference). -/
def schemeSplitChars : List Char → Option (List Char × List Char)
  | [] => none
  | ':' :: '/' :: '/' :: rest => some ([], rest)
  | c :: cs =>
    match schemeSplitChars cs with
    | some (sch, rest) => some (c :: sch, rest)
    | none => none

/-- Split a character list on every occurrence of the character `c`. -/
def splitOnChar (c : Char) : List Char → List (List Char)
  | [] => [[]]
  | d :: ds =>
    let r := splitOnChar c ds
    if d = c then [] :: r
    else
      match r with
      | [] => [[d]]
      | s :: rest => (d :: s) :: rest

/-- Join character-list segments with the character `c` between them. -/
def intercalateChar (c : Char) : List (List Char) → List Char
  | [] => []
  | [s] => s
  | s :: rest => s ++ c :: intercalateChar c rest

/-- Models `urlparse(u).netloc` on character lists: the host[:port]
component of an absolute URL, and the empty list for a relative
reference. -/
def netlocChars (u : List Char) : List Char :=
  match schemeSplitChars u with
  | some (_, rest) => (splitOnChar '/' rest).headD []
  | none => []

/-- Models `urlparse(u).netloc`. -/
def netloc (u : String) : String :=
  String.mk (netlocChars u.toList)

/-- Models `urljoin(base, rel)` on character lists: an absolute `rel` is
returned unchanged; a network-path reference `//...` keeps only the base
scheme; an absolute path `/...` keeps scheme and netloc; any other
non-empty `rel` replaces the last segment of the base path; an empty
`rel` yields the base. -/
def urljoinChars (base rel : List Char) : List Char :=
  if (schemeSplitChars rel).isSome then rel
  else
    match schemeSplitChars base with
    | none => rel
    | some (sch, rest) =>
      let parts := splitOnChar '/' rest
      let host := parts.headD []
      let pathSegs := parts.tail
      match rel with
      | [] => base
      | '/' :: '/' :: _ => sch ++ ':' :: rel
      | '/' :: _ => sch ++ [':', '/', '/'] ++ host ++ rel
      | _ =>
        let dir := pathSegs.dropLast
        sch ++ [':', '/', '/'] ++ host ++ ['/'] ++ intercalateChar '/' dir ++
          (if dir.isEmpty then [] else ['/']) ++ rel

/-- Models `urljoin(base, rel)`. -/
def urljoin (base rel : String) : String :=
  String.mk (urljoinChars base.toList rel.toList)

/-- The link resolution of `_crawl_recursive` (crawler.py line 166):
`links = [urljoin(base_url, link['href']) for link in soup.find_all('a', href=True)]`.
Both `base_url` (the seed of the crawl) and `url` (the page the hrefs were
found on) are in scope at that line; the source passes `base_url` to
`urljoin`, so the page URL argument is unused. -/
def resolveLinks (base_url url : String) (hrefs : List String) : List String :=
  hrefs.map (urljoin base_url)

/-! ## The crawl state machine -/

/-- A crawl task: the pair of arguments that vary across the recursive
submissions `executor.submit(self._crawl_recursive, base_url, next_url, depth + 1, max_depth, pages)`. -/
structure CrawlTask where
  url : String
  depth : Nat
deriving DecidableEq, Repr

/-- Program counter of a worker running `_crawl_recursive`, between its
atomic shared-state operations:
`checking` — about to evaluate `depth > max_depth or url in self.visited_urls`;
`adding` — about to run `self.visited_urls.add(url)`;
`fetching` — about to run the GET/retry loop and, on success,
`pages[url] = html` together with link extraction;
`submitting cs` — about to run `self.executor.submit` for each remaining
in-domain child task in `cs`, one submission per step. -/
inductive WorkerPhase where
  | checking
  | adding
  | fetching
  | submitting (cs : List CrawlTask)
deriving DecidableEq, Repr

/-- A running worker thread: its task, its program counter, and whether it
is executing the seed submission (the one future `Crawler.crawl` stores in
`future_to_url` and waits on via `as_completed`). -/
structure Worker where
  task : CrawlTask
  phase : WorkerPhase
  isSeed : Bool
deriving DecidableEq, Repr

/-- Program counter of the main thread inside `Crawler.crawl`:
`awaitSeed` — blocked in `as_completed` on the seed future;
`shuttingDown` — about to run `self.executor.shutdown(wait=True)`, whose
first effect is to set the executor's shutdown flag;
`awaitAll` — inside `shutdown(wait=True)`, waiting for the queue to drain;
`returned` — `crawl` has returned `pages`. -/
inductive MainPhase where
  | awaitSeed
  | shuttingDown
  | awaitAll
  | returned
deriving DecidableEq, Repr

/-- The shared state of one `Crawler.crawl` invocation: `visited` is
`self.visited_urls`, `pages` the result dict, `isShutdown` the executor's
shutdown flag, `queue` the submitted-but-not-yet-started tasks (each
tagged with whether it is the seed task), `running` the worker threads
currently executing a task, `seedDone` whether the seed future has
completed, `main` the main thread's position, and `fetchLog` the audit
trail of tasks that entered their GET/retry loop (one entry per task that
begins fetching a URL). -/
structure Config where
  visited : List String
  pages : List (String × String)
  isShutdown : Bool
  queue : List (CrawlTask × Bool)
  running : List Worker
  seedDone : Bool
  main : MainPhase
  fetchLog : List String
deriving DecidableEq, Repr

/-- Parameters of a crawl invocation: the seed URL, the depth bound, the
worker-pool size, and the network.  `net u` is `none` when the GET/retry
loop for `u` stores nothing (a 404 or `max_retries` transient failures)
and `some (body, hrefs)` when it succeeds with `body` whose parse yields
the raw hrefs `hrefs`. -/
structure Params where
  base : String
  maxDepth : Nat
  maxWorkers : Nat
  net : String → Option (String × List String)

/-- Python dict assignment `pages[url] = body`: overwrite the entry when
the key is present, append it otherwise. -/
def putPage (ps : List (String × String)) (u b : String) : List (String × String) :=
  if ps.any (fun e => e.1 = u) then
    ps.map (fun e => if e.1 = u then (u, b) else e)
  else
    ps ++ [(u, b)]

/-- The in-domain child tasks scheduled from a successfully fetched page
(crawler.py lines 166-171): resolve every raw href against `base_url`,
keep those whose netloc equals the netloc of `base_url`, and pair each
with depth `depth + 1`. -/
def childTasks (p : Params) (t : CrawlTask) (hrefs : List String) : List CrawlTask :=
  ((resolveLinks p.base t.url hrefs).filter
      (fun u2 => netloc u2 = netloc p.base)).map
    (fun u2 => CrawlTask.mk u2 (t.depth + 1))

/-- Remove worker `k` from the running list and record seed completion
when it was the seed worker (its future becomes done). -/
def finishAt (c : Config) (k : Nat) (seedFlag : Bool) : Config :=
  { c with running := c.running.eraseIdx k, seedDone := c.seedDone || seedFlag }

/-- One atomic step of worker `k`, currently `th`, following
`_crawl_recursive` (crawler.py lines 139-177).  The visited check and the
insertion are two separate steps, exactly as in the source; a submission
attempted after the executor's shutdown flag is set raises `RuntimeError`,
which is not a `requests.exceptions.RequestException`, so it escapes
`_crawl_recursive` and ends the task with its remaining children never
submitted. -/
def doWorker (p : Params) (c : Config) (k : Nat) (th : Worker) : Config :=
  match th.phase with
  | .checking =>
    if th.task.depth > p.maxDepth ∨ th.task.url ∈ c.visited then
      finishAt c k th.isSeed
    else
      { c with running := c.running.set k { th with phase := .adding } }
  | .adding =>
    { c with visited := th.task.url :: c.visited,
             running := c.running.set k { th with phase := .fetching } }
  | .fetching =>
    match p.net th.task.url with
    | none =>
      { finishAt c k th.isSeed with fetchLog := c.fetchLog ++ [th.task.url] }
    | some (body, hrefs) =>
      { c with pages := putPage c.pages th.task.url body,
               fetchLog := c.fetchLog ++ [th.task.url],
               running := c.running.set k
                 { th with phase := .submitting (childTasks p th.task hrefs) } }
  | .submitting [] => finishAt c k th.isSeed
  | .submitting (t :: rest) =>
    if c.isShutdown then finishAt c k th.isSeed
    else
      { c with queue := c.queue ++ [(t, false)],
               running := c.running.set k { th with phase := .submitting rest } }

/-- A free worker thread of the pool picks up the task at the head of the
executor queue; only possible while fewer than `max_workers` tasks run. -/
def startTask (p : Params) (c : Config) : Config :=
  match c.queue with
  | [] => c
  | (t, seedFlag) :: rest =>
    if c.running.length < p.maxWorkers then
      { c with queue := rest,
               running := c.running ++ [Worker.mk t .checking seedFlag] }
    else c

/-- One atomic step of the main thread inside `Crawler.crawl` (crawler.py
lines 126-137): wait for the seed future, then set the executor shutdown
flag, then wait for the pool to drain, then return `pages`. -/
def mainStep (c : Config) : Config :=
  match c.main with
  | .awaitSeed => if c.seedDone then { c with main := .shuttingDown } else c
  | .shuttingDown => { c with isShutdown := true, main := .awaitAll }
  | .awaitAll =>
    if c.running.isEmpty && c.queue.isEmpty then { c with main := .returned } else c
  | .returned => c

/-- One step of the whole system, resolved by the scheduler choice `a`:
`0` starts a queued task on a free pool thread, `1` advances the main
thread, and `k + 2` advances running worker `k`.  A choice whose action is
not enabled leaves the configuration unchanged. -/
def step (p : Params) (c : Config) (a : Nat) : Config :=
  match a with
  | 0 => startTask p c
  | 1 => mainStep c
  | k + 2 =>
    match c.running[k]? with
    | none => c
    | some th => doWorker p c k th

/-- Run a schedule: fold `step` over the list of scheduler choices. -/
def run (p : Params) (c : Config) : List Nat → Config
  | [] => c
  | a :: s => run p (step p c a) s

/-- The configuration right after `Crawler.crawl` submitted the seed task
`(base_url, 0)` and is about to wait on its future, starting from the
carried-in visited set `vis` (`self.visited_urls` at entry to `crawl`). -/
def initFrom (p : Params) (vis : List String) : Config :=
  { visited := vis, pages := [], isShutdown := false,
    queue := [(CrawlTask.mk p.base 0, true)], running := [],
    seedDone := false, main := .awaitSeed, fetchLog := [] }

/-- The initial configuration of a crawl on a fresh `Crawler` instance,
whose `visited_urls` set is empty. -/
def init (p : Params) : Config := initFrom p []

/-- The network abstraction `Params.net` obtained from the retry loop:
`responses u i` is the response to the i-th GET attempt for `u`,
`links u` the raw hrefs of the body of `u`, and the crawl stores a page
for `u` exactly when `fetchResult` of its response sequence does. -/
def netOf (responses : String → Nat → Resp) (links : String → List String)
    (maxRetries : Nat) : String → Option (String × List String) :=
  fun u =>
    match (fetchResult (responses u) maxRetries).1 with
    | some body => some (body, links u)
    | none => none

/-! ## Crawler instance state across `crawl` invocations -/

/-- The mutable instance state of a `Crawler` object that survives between
`crawl` invocations: `self.visited_urls` (created in `__init__`, never
cleared by `crawl`) and whether `self.executor` (also created in
`__init__`) has been shut down. -/
structure CrawlerState where
  visited : List String
  executorShutdown : Bool
deriving DecidableEq, Repr

/-- A fresh `Crawler()`: empty visited set, live executor. -/
def initCrawler : CrawlerState := ⟨[], false⟩

/-- One call `crawler.crawl(base, max_depth)` on an instance with state
`cs`, resolved by the schedule `s`.  `self.visited_urls` is carried in
from earlier invocations; if the executor was already shut down, the very
first `executor.submit` in `crawl` raises `RuntimeError`, which `crawl`
does not catch.  On completion the pages of the run are returned and the
instance keeps the grown visited set with the executor now shut down
(`crawl` calls `self.executor.shutdown(wait=True)` before returning). -/
def crawlInvoke (cs : CrawlerState) (p : Params) (s : List Nat) :
    Except String (List (String × String) × CrawlerState) :=
  if cs.executorShutdown then
    Except.error "RuntimeError: cannot schedule new futures after shutdown"
  else
    let c := run p (initFrom p cs.visited) s
    Except.ok (c.pages, ⟨c.visited, true⟩)

/-! ## The atomic test-and-set variant

The specification (section 9) prescribes replacing the two-step
check-then-insert of the source by one atomic test-and-set.  The variant
below differs from `doWorker` only in the `checking` phase, which performs
the membership test and the insertion in a single atomic step; the
`adding` phase becomes unreachable. -/

/-- Variant of `doWorker` with the check and the insertion fused into one atomic
test-and-set step. -/
def doWorkerTS (p : Params) (c : Config) (k : Nat) (th : Worker) : Config :=
  match th.phase with
  | .checking =>
    if th.task.depth > p.maxDepth ∨ th.task.url ∈ c.visited then
      finishAt c k th.isSeed
    else
      { c with visited := th.task.url :: c.visited,
               running := c.running.set k { th with phase := .fetching } }
  | .adding => c
  | .fetching =>
    match p.net th.task.url with
    | none =>
      { finishAt c k th.isSeed with fetchLog := c.fetchLog ++ [th.task.url] }
    | some (body, hrefs) =>
      { c with pages := putPage c.pages th.task.url body,
               fetchLog := c.fetchLog ++ [th.task.url],
               running := c.running.set k
                 { th with phase := .submitting (childTasks p th.task hrefs) } }
  | .submitting [] => finishAt c k th.isSeed
  | .submitting (t :: rest) =>
    if c.isShutdown then finishAt c k th.isSeed
    else
      { c with queue := c.queue ++ [(t, false)],
               running := c.running.set k { th with phase := .submitting rest } }

/-- The step function over the test-and-set variant of the worker body. -/
def stepTS (p : Params) (c : Config) (a : Nat) : Config :=
  match a with
  | 0 => startTask p c
  | 1 => mainStep c
  | k + 2 =>
    match c.running[k]? with
    | none => c
    | some th => doWorkerTS p c k th

/-- Run a schedule over the test-and-set variant. -/
def runTS (p : Params) (c : Config) : List Nat → Config
  | [] => c
  | a :: s => runTS p (stepTS p c a) s

/-- Worker `th` is in its GET phase for URL `u`. -/
def isFetchingAt (u : String) (th : Worker) : Bool :=
  th.task.url == u &&
    (match th.phase with
     | WorkerPhase.fetching => true
     | _ => false)

/-- Worker `th` has passed the visited check for URL `u`. -/
def isPastCheckAt (u : String) (th : Worker) : Bool :=
  th.task.url == u &&
    (match th.phase with
     | WorkerPhase.checking => false
     | _ => true)

/-- The seed tag of a queue entry. -/
def seedQ (q : CrawlTask × Bool) : Bool := q.2

/-- The seed tag of a running worker. -/
def seedW (th : Worker) : Bool := th.isSeed

/-! ## Concrete scenarios used by counterexamples and witnesses -/

/-- A two-level site whose seed page `s://h/a` carries the same in-domain
link twice. -/
def netDup : String → Option (String × List String) := fun u =>
  if u = "s://h/a" then some ("B", ["c", "c"])
  else if u = "s://h/c" then some ("C", []) else none

def pDup : Params := ⟨"s://h/a", 1, 5, netDup⟩

/-- Schedule: the seed task runs alone, then the two tasks for `s://h/c`
start together and interleave so that both pass the visited check before
either inserts. -/
def sDup : List Nat := [0, 2, 2, 2, 2, 2, 2, 0, 0, 2, 3, 2, 3, 2, 3, 2, 2, 1, 1, 1]

/-- A three-level chain `s://h/a → s://h/b → s://h/g`. -/
def netChain : String → Option (String × List String) := fun u =>
  if u = "s://h/a" then some ("B", ["b"])
  else if u = "s://h/b" then some ("B2", ["g"])
  else if u = "s://h/g" then some ("G", []) else none

def pChain : Params := ⟨"s://h/a", 3, 5, netChain⟩

/-- Schedule in which the main thread sets the executor shutdown flag
after the seed future completes but before the worker for `s://h/b`
submits its child, so that submission is rejected. -/
def sChainDrop : List Nat := [0, 2, 2, 2, 2, 2, 1, 1, 0, 2, 2, 2, 2, 1]

/-- Schedule in which the worker for `s://h/b` submits its child before
the main thread begins the shutdown, so the grandchild is crawled. -/
def sChainOk : List Nat :=
  [0, 2, 2, 2, 2, 2, 0, 2, 2, 2, 2, 2, 0, 2, 2, 2, 2, 1, 1, 1]

/-- A site with a subdirectory page holding a relative href: the seed
`s://h/a/` links to `sub/`, and the page `s://h/a/sub/` holds the
relative href `x`. -/
def netRel : String → Option (String × List String) := fun u =>
  if u = "s://h/a/" then some ("B", ["sub/"])
  else if u = "s://h/a/sub/" then some ("S", ["x"]) else none

def pRel : Params := ⟨"s://h/a/", 3, 5, netRel⟩

def sRel : List Nat := [0, 2, 2, 2, 2, 2, 0, 2, 2, 2, 2, 2, 0, 2, 2, 2, 1, 1, 1]

/-- A site where `s://h/x` is linked both from the seed (depth 1) and from
`s://h/b` (depth 2); with `max_depth = 1` the depth-2 task must be
skipped. -/
def netDia : String → Option (String × List String) := fun u =>
  if u = "s://h/a" then some ("B", ["b", "x"])
  else if u = "s://h/b" then some ("B2", ["x"])
  else if u = "s://h/x" then some ("X", []) else none

def pDia : Params := ⟨"s://h/a", 1, 5, netDia⟩

/-- Schedule prefix: the seed and `s://h/b` run to completion, both tasks
for `s://h/x` are started, and the depth-2 one performs its check (and is
skipped) first. -/
def sDiaSkip : List Nat := [0, 2, 2, 2, 2, 2, 2, 0, 2, 2, 2, 2, 2, 0, 0, 3]

/-- Schedule suffix: the depth-1 task for `s://h/x` then runs to
completion and the crawl drains. -/
def sDiaRest : List Nat := [2, 2, 2, 2, 1, 1, 1]

/-- A single-page site. -/
def netOne : String → Option (String × List String) := fun u =>
  if u = "s://h/a" then some ("B", []) else none

def pOne : Params := ⟨"s://h/a", 3, 5, netOne⟩

def sOne : List Nat := [0, 2, 2, 2, 2, 1, 1, 1]

/-- A single fetched page whose body carries one link, crawled with
`max_depth = 0`. -/
def netSeed : String → Option (String × List String) := fun u =>
  if u = "s://h/a" then some ("B", ["c"]) else none

def pSeed : Params := ⟨"s://h/a", 0, 5, netSeed⟩

def sSeed : List Nat := [0, 2, 2, 2, 2, 2, 0, 2, 1, 1, 1]

/-! ## List helper lemmas -/

theorem mem_of_mem_set {α : Type} {l : List α} {k : Nat} {x a : α}
    (h : a ∈ l.set k x) : a = x ∨ a ∈ l := by
  induction l generalizing k with
  | nil => simp [List.set] at h
  | cons b t ih =>
    cases k with
    | zero =>
      rcases List.mem_cons.mp h with h | h
      · exact Or.inl h
      · exact Or.inr (List.mem_cons_of_mem _ h)
    | succ k =>
      rcases List.mem_cons.mp h with h | h
      · exact Or.inr (h ▸ List.mem_cons_self _ _)
      · rcases ih h with h | h
        · exact Or.inl h
        · exact Or.inr (List.mem_cons_of_mem _ h)

theorem mem_set_elim {α : Type} {l : List α} {k : Nat} {x a : α}
    (h : a ∈ l.set k x) : a = x ∨ ∃ i, i ≠ k ∧ l[i]? = some a := by
  induction l generalizing k with
  | nil => simp [List.set] at h
  | cons b t ih =>
    cases k with
    | zero =>
      rcases List.mem_cons.mp h with h | h
      · exact Or.inl h
      · rcases List.getElem?_of_mem h with ⟨i, hi⟩
        exact Or.inr ⟨i + 1, by omega, by simpa using hi⟩
    | succ k =>
      rcases List.mem_cons.mp h with h | h
      · exact Or.inr ⟨0, by omega, by simp [h]⟩
      · rcases ih h with h | ⟨i, hik, hi⟩
        · exact Or.inl h
        · exact Or.inr ⟨i + 1, by omega, by simpa using hi⟩

theorem mem_of_mem_eraseIdx {α : Type} {l : List α} {k : Nat} {a : α}
    (h : a ∈ l.eraseIdx k) : a ∈ l := by
  rcases List.mem_eraseIdx_iff_getElem?.mp h with ⟨i, _, hi⟩
  rcases List.getElem?_eq_some.mp hi with ⟨hlt, he⟩
  exact he ▸ List.getElem_mem hlt

theorem countP_eraseIdx_add {α : Type} (P : α → Bool) {l : List α} {k : Nat} {y : α}
    (h : l[k]? = some y) :
    (l.eraseIdx k).countP P + (if P y then 1 else 0) = l.countP P := by
  induction l generalizing k with
  | nil => simp at h
  | cons b t ih =>
    cases k with
    | zero =>
      simp only [List.getElem?_cons_zero, Option.some.injEq] at h
      subst h
      simp [List.countP_cons]
    | succ k =>
      simp only [List.getElem?_cons_succ] at h
      have := ih h
      simp only [List.eraseIdx_cons_succ, List.countP_cons]
      omega

theorem countP_set_add {α : Type} (P : α → Bool) {l : List α} {k : Nat} {x y : α}
    (h : l[k]? = some y) :
    (l.set k x).countP P + (if P y then 1 else 0)
      = l.countP P + (if P x then 1 else 0) := by
  induction l generalizing k with
  | nil => simp at h
  | cons b t ih =>
    cases k with
    | zero =>
      simp only [List.getElem?_cons_zero, Option.some.injEq] at h
      subst h
      simp [List.countP_cons]
      omega
    | succ k =>
      simp only [List.getElem?_cons_succ] at h
      have := ih h
      simp only [List.set_cons_succ, List.countP_cons]
      omega

theorem mem_putPage {ps : List (String × String)} {u b : String}
    {e : String × String} :
    e ∈ putPage ps u b ↔ (e = (u, b)) ∨ (e ∈ ps ∧ e.1 ≠ u) := by
  unfold putPage
  by_cases hany : ps.any (fun e => e.1 = u) = true
  · simp only [if_pos hany, List.mem_map]
    constructor
    · rintro ⟨a, ha, rfl⟩
      by_cases hau : a.1 = u
      · simp [hau]
      · simp only [hau, if_false]
        exact Or.inr ⟨ha, hau⟩
    · rintro (rfl | ⟨he, hne⟩)
      · rcases List.any_eq_true.mp hany with ⟨a, ha, hau⟩
        exact ⟨a, ha, by simp [of_decide_eq_true hau]⟩
      · exact ⟨e, he, by simp [hne]⟩
  · simp only [if_neg hany, List.mem_append, List.mem_singleton]
    constructor
    · rintro (he | rfl)
      · refine Or.inr ⟨he, ?_⟩
        intro hu
        exact hany (List.any_eq_true.mpr ⟨e, he, decide_eq_true hu⟩)
      · exact Or.inl rfl
    · rintro (rfl | ⟨he, _⟩)
      · exact Or.inr rfl
      · exact Or.inl he

theorem countP_eq_zero_forall {α : Type} {P : α → Bool} {l : List α}
    (h : l.countP P = 0) : ∀ a ∈ l, P a = false := by
  intro a ha
  by_contra hne
  have : 0 < l.countP P := List.countP_pos.mpr ⟨a, ha, by simpa using hne⟩
  omega

theorem countP_pos_of_mem {α : Type} {P : α → Bool} {l : List α} {a : α}
    (ha : a ∈ l) (hP : P a = true) : 1 ≤ l.countP P :=
  List.countP_pos.mpr ⟨a, ha, hP⟩

/-! ## The run-invariant scheme -/

theorem run_inv {p : Params} {Inv : Config → Prop}
    (pres : ∀ c a, Inv c → Inv (step p c a)) :
    ∀ (s : List Nat) (c : Config), Inv c → Inv (run p c s) := by
  intro s
  induction s with
  | nil => intro c h; exact h
  | cons a s ih => intro c h; exact ih _ (pres c a h)

theorem runTS_inv {p : Params} {Inv : Config → Prop}
    (pres : ∀ c a, Inv c → Inv (stepTS p c a)) :
    ∀ (s : List Nat) (c : Config), Inv c → Inv (runTS p c s) := by
  intro s
  induction s with
  | nil => intro c h; exact h
  | cons a s ih => intro c h; exact ih _ (pres c a h)

/-! ## Classification of the possible transitions -/

/-- All transitions `step` can take from `c`: either the chosen action is
not enabled and the configuration is unchanged, or exactly one of the
worker-pool, main-thread or worker-body actions fires. -/
inductive StepCase (p : Params) (c : Config) : Config → Prop
  | stuck : StepCase p c c
  | start (t : CrawlTask) (f : Bool) (rest : List (CrawlTask × Bool)) :
      c.queue = (t, f) :: rest → c.running.length < p.maxWorkers →
      StepCase p c { c with queue := rest,
                            running := c.running ++ [Worker.mk t .checking f] }
  | mainSeed : c.main = .awaitSeed → c.seedDone = true →
      StepCase p c { c with main := .shuttingDown }
  | mainShut : c.main = .shuttingDown →
      StepCase p c { c with isShutdown := true, main := .awaitAll }
  | mainRet : c.main = .awaitAll → c.running = [] → c.queue = [] →
      StepCase p c { c with main := .returned }
  | wSkip (k : Nat) (th : Worker) : c.running[k]? = some th →
      th.phase = .checking →
      (th.task.depth > p.maxDepth ∨ th.task.url ∈ c.visited) →
      StepCase p c (finishAt c k th.isSeed)
  | wPass (k : Nat) (th : Worker) : c.running[k]? = some th →
      th.phase = .checking →
      ¬(th.task.depth > p.maxDepth ∨ th.task.url ∈ c.visited) →
      StepCase p c { c with running := c.running.set k { th with phase := .adding } }
  | wAdd (k : Nat) (th : Worker) : c.running[k]? = some th →
      th.phase = .adding →
      StepCase p c { c with visited := th.task.url :: c.visited,
                            running := c.running.set k { th with phase := .fetching } }
  | wFetchFail (k : Nat) (th : Worker) : c.running[k]? = some th →
      th.phase = .fetching → p.net th.task.url = none →
      StepCase p c { finishAt c k th.isSeed with
                       fetchLog := c.fetchLog ++ [th.task.url] }
  | wFetchOk (k : Nat) (th : Worker) (body : String) (hrefs : List String) :
      c.running[k]? = some th → th.phase = .fetching →
      p.net th.task.url = some (body, hrefs) →
      StepCase p c { c with pages := putPage c.pages th.task.url body,
                            fetchLog := c.fetchLog ++ [th.task.url],
                            running := c.running.set k
                              { th with phase := .submitting (childTasks p th.task hrefs) } }
  | wSubDone (k : Nat) (th : Worker) : c.running[k]? = some th →
      th.phase = .submitting [] →
      StepCase p c (finishAt c k th.isSeed)
  | wSubShut (k : Nat) (th : Worker) (t : CrawlTask) (rest : List CrawlTask) :
      c.running[k]? = some th → th.phase = .submitting (t :: rest) →
      c.isShutdown = true →
      StepCase p c (finishAt c k th.isSeed)
  | wSub (k : Nat) (th : Worker) (t : CrawlTask) (rest : List CrawlTask) :
      c.running[k]? = some th → th.phase = .submitting (t :: rest) →
      c.isShutdown = false →
      StepCase p c { c with queue := c.queue ++ [(t, false)],
                            running := c.running.set k { th with phase := .submitting rest } }

theorem step_cases (p : Params) (c : Config) (a : Nat) :
    StepCase p c (step p c a) := by
  cases a with
  | zero =>
    show StepCase p c (startTask p c)
    cases hq : c.queue with
    | nil => simp only [startTask, hq]; exact .stuck
    | cons q rest =>
      obtain ⟨t, f⟩ := q
      by_cases hlen : c.running.length < p.maxWorkers
      · simp only [startTask, hq, if_pos hlen]
        exact .start t f rest hq hlen
      · simp only [startTask, hq, if_neg hlen]
        exact .stuck
  | succ a =>
    cases a with
    | zero =>
      show StepCase p c (mainStep c)
      cases hm : c.main with
      | awaitSeed =>
        cases hs : c.seedDone with
        | false =>
          simp only [mainStep, hm]
          rw [if_neg (by simp [hs])]
          exact .stuck
        | true =>
          simp only [mainStep, hm]
          rw [if_pos hs]
          exact .mainSeed hm hs
      | shuttingDown => simp only [mainStep, hm]; exact .mainShut hm
      | awaitAll =>
        by_cases hemp : (c.running.isEmpty && c.queue.isEmpty) = true
        · simp only [mainStep, hm]
          rw [if_pos hemp]
          rcases Bool.and_eq_true_iff.mp hemp with ⟨h1, h2⟩
          exact .mainRet hm (List.isEmpty_iff.mp h1) (List.isEmpty_iff.mp h2)
        · simp only [mainStep, hm]
          rw [if_neg hemp]
          exact .stuck
      | returned => simp only [mainStep, hm]; exact .stuck
    | succ k =>
      show StepCase p c (match c.running[k]? with
        | none => c
        | some th => doWorker p c k th)
      cases hth : c.running[k]? with
      | none => exact .stuck
      | some th =>
        show StepCase p c (doWorker p c k th)
        cases hph : th.phase with
        | checking =>
          by_cases hcond : th.task.depth > p.maxDepth ∨ th.task.url ∈ c.visited
          · simp only [doWorker, hph, if_pos hcond]
            exact .wSkip k th hth hph hcond
          · simp only [doWorker, hph, if_neg hcond]
            exact .wPass k th hth hph hcond
        | adding =>
          simp only [doWorker, hph]
          exact .wAdd k th hth hph
        | fetching =>
          cases hnet : p.net th.task.url with
          | none =>
            simp only [doWorker, hph, hnet]
            exact .wFetchFail k th hth hph hnet
          | some r =>
            obtain ⟨body, hrefs⟩ := r
            simp only [doWorker, hph, hnet]
            exact .wFetchOk k th body hrefs hth hph hnet
        | submitting cs =>
          cases cs with
          | nil =>
            simp only [doWorker, hph]
            exact .wSubDone k th hth hph
          | cons t rest =>
            cases hsh : c.isShutdown with
            | true =>
              simp only [doWorker, hph]
              rw [if_pos hsh]
              exact .wSubShut k th t rest hth hph hsh
            | false =>
              simp only [doWorker, hph]
              rw [if_neg (by simp [hsh])]
              exact .wSub k th t rest hth hph hsh

/-- All transitions of the test-and-set variant `stepTS`: as `StepCase`,
except that a passed check atomically inserts the URL and moves straight
to the fetch phase. -/
inductive StepCaseTS (p : Params) (c : Config) : Config → Prop
  | stuck : StepCaseTS p c c
  | start (t : CrawlTask) (f : Bool) (rest : List (CrawlTask × Bool)) :
      c.queue = (t, f) :: rest → c.running.length < p.maxWorkers →
      StepCaseTS p c { c with queue := rest,
                              running := c.running ++ [Worker.mk t .checking f] }
  | mainSeed : c.main = .awaitSeed → c.seedDone = true →
      StepCaseTS p c { c with main := .shuttingDown }
  | mainShut : c.main = .shuttingDown →
      StepCaseTS p c { c with isShutdown := true, main := .awaitAll }
  | mainRet : c.main = .awaitAll → c.running = [] → c.queue = [] →
      StepCaseTS p c { c with main := .returned }
  | wSkip (k : Nat) (th : Worker) : c.running[k]? = some th →
      th.phase = .checking →
      (th.task.depth > p.maxDepth ∨ th.task.url ∈ c.visited) →
      StepCaseTS p c (finishAt c k th.isSeed)
  | wTS (k : Nat) (th : Worker) : c.running[k]? = some th →
      th.phase = .checking →
      ¬(th.task.depth > p.maxDepth ∨ th.task.url ∈ c.visited) →
      StepCaseTS p c { c with visited := th.task.url :: c.visited,
                              running := c.running.set k { th with phase := .fetching } }
  | wFetchFail (k : Nat) (th : Worker) : c.running[k]? = some th →
      th.phase = .fetching → p.net th.task.url = none →
      StepCaseTS p c { finishAt c k th.isSeed with
                         fetchLog := c.fetchLog ++ [th.task.url] }
  | wFetchOk (k : Nat) (th : Worker) (body : String) (hrefs : List String) :
      c.running[k]? = some th → th.phase = .fetching →
      p.net th.task.url = some (body, hrefs) →
      StepCaseTS p c { c with pages := putPage c.pages th.task.url body,
                              fetchLog := c.fetchLog ++ [th.task.url],
                              running := c.running.set k
                                { th with phase := .submitting (childTasks p th.task hrefs) } }
  | wSubDone (k : Nat) (th : Worker) : c.running[k]? = some th →
      th.phase = .submitting [] →
      StepCaseTS p c (finishAt c k th.isSeed)
  | wSubShut (k : Nat) (th : Worker) (t : CrawlTask) (rest : List CrawlTask) :
      c.running[k]? = some th → th.phase = .submitting (t :: rest) →
      c.isShutdown = true →
      StepCaseTS p c (finishAt c k th.isSeed)
  | wSub (k : Nat) (th : Worker) (t : CrawlTask) (rest : List CrawlTask) :
      c.running[k]? = some th → th.phase = .submitting (t :: rest) →
      c.isShutdown = false →
      StepCaseTS p c { c with queue := c.queue ++ [(t, false)],
                              running := c.running.set k { th with phase := .submitting rest } }

theorem stepTS_cases (p : Params) (c : Config) (a : Nat) :
    StepCaseTS p c (stepTS p c a) := by
  cases a with
  | zero =>
    show StepCaseTS p c (startTask p c)
    cases hq : c.queue with
    | nil => simp only [startTask, hq]; exact .stuck
    | cons q rest =>
      obtain ⟨t, f⟩ := q
      by_cases hlen : c.running.length < p.maxWorkers
      · simp only [startTask, hq, if_pos hlen]
        exact .start t f rest hq hlen
      · simp only [startTask, hq, if_neg hlen]
        exact .stuck
  | succ a =>
    cases a with
    | zero =>
      show StepCaseTS p c (mainStep c)
      cases hm : c.main with
      | awaitSeed =>
        cases hs : c.seedDone with
        | false =>
          simp only [mainStep, hm]
          rw [if_neg (by simp [hs])]
          exact .stuck
        | true =>
          simp only [mainStep, hm]
          rw [if_pos hs]
          exact .mainSeed hm hs
      | shuttingDown => simp only [mainStep, hm]; exact .mainShut hm
      | awaitAll =>
        by_cases hemp : (c.running.isEmpty && c.queue.isEmpty) = true
        · simp only [mainStep, hm]
          rw [if_pos hemp]
          rcases Bool.and_eq_true_iff.mp hemp with ⟨h1, h2⟩
          exact .mainRet hm (List.isEmpty_iff.mp h1) (List.isEmpty_iff.mp h2)
        · simp only [mainStep, hm]
          rw [if_neg hemp]
          exact .stuck
      | returned => simp only [mainStep, hm]; exact .stuck
    | succ k =>
      show StepCaseTS p c (match c.running[k]? with
        | none => c
        | some th => doWorkerTS p c k th)
      cases hth : c.running[k]? with
      | none => exact .stuck
      | some th =>
        show StepCaseTS p c (doWorkerTS p c k th)
        cases hph : th.phase with
        | checking =>
          by_cases hcond : th.task.depth > p.maxDepth ∨ th.task.url ∈ c.visited
          · simp only [doWorkerTS, hph, if_pos hcond]
            exact .wSkip k th hth hph hcond
          · simp only [doWorkerTS, hph, if_neg hcond]
            exact .wTS k th hth hph hcond
        | adding =>
          simp only [doWorkerTS, hph]
          exact .stuck
        | fetching =>
          cases hnet : p.net th.task.url with
          | none =>
            simp only [doWorkerTS, hph, hnet]
            exact .wFetchFail k th hth hph hnet
          | some r =>
            obtain ⟨body, hrefs⟩ := r
            simp only [doWorkerTS, hph, hnet]
            exact .wFetchOk k th body hrefs hth hph hnet
        | submitting cs =>
          cases cs with
          | nil =>
            simp only [doWorkerTS, hph]
            exact .wSubDone k th hth hph
          | cons t rest =>
            cases hsh : c.isShutdown with
            | true =>
              simp only [doWorkerTS, hph]
              rw [if_pos hsh]
              exact .wSubShut k th t rest hth hph hsh
            | false =>
              simp only [doWorkerTS, hph]
              rw [if_neg (by simp [hsh])]
              exact .wSub k th t rest hth hph hsh

/-! ## Invariants of the crawl -/

/-- Every stored page entry carries the body the network returned for its
key, and every URL whose task began fetching and whose fetch succeeds is
stored with that body. -/
def FetchPagesInv (p : Params) (c : Config) : Prop :=
  (∀ e ∈ c.pages, ∃ ls, p.net e.1 = some (e.2, ls)) ∧
  (∀ u ∈ c.fetchLog, ∀ bd ls, p.net u = some (bd, ls) → (u, bd) ∈ c.pages)

theorem fetchPages_pres (p : Params) :
    ∀ c a, FetchPagesInv p c → FetchPagesInv p (step p c a) := by
  intro c a h
  obtain ⟨h1, h2⟩ := h
  have hsc := step_cases p c a
  generalize step p c a = c2 at hsc ⊢
  cases hsc with
  | stuck => exact ⟨h1, h2⟩
  | start t f rest hq hlen => exact ⟨h1, h2⟩
  | mainSeed hm hs => exact ⟨h1, h2⟩
  | mainShut hm => exact ⟨h1, h2⟩
  | mainRet hm hr hq => exact ⟨h1, h2⟩
  | wSkip k th hth hph hcond => exact ⟨h1, h2⟩
  | wPass k th hth hph hcond => exact ⟨h1, h2⟩
  | wAdd k th hth hph => exact ⟨h1, h2⟩
  | wFetchFail k th hth hph hnet =>
    refine ⟨h1, ?_⟩
    intro u hu bd ls hnet2
    rcases List.mem_append.mp hu with hu | hu
    · exact h2 u hu bd ls hnet2
    · rcases List.mem_singleton.mp hu with rfl
      rw [hnet] at hnet2
      cases hnet2
  | wFetchOk k th body hrefs hth hph hnet =>
    constructor
    · intro e he
      rcases mem_putPage.mp he with rfl | ⟨he, hne⟩
      · exact ⟨hrefs, hnet⟩
      · exact h1 e he
    · intro u hu bd ls hnet2
      rcases List.mem_append.mp hu with hu | hu
      · by_cases hue : u = th.task.url
        · subst hue
          rw [hnet] at hnet2
          obtain ⟨rfl, rfl⟩ : body = bd ∧ hrefs = ls := by
            injection hnet2 with h3
            exact ⟨congrArg Prod.fst h3, congrArg Prod.snd h3⟩
          exact mem_putPage.mpr (Or.inl rfl)
        · exact mem_putPage.mpr (Or.inr ⟨h2 u hu bd ls hnet2, hue⟩)
      · rcases List.mem_singleton.mp hu with rfl
        rw [hnet] at hnet2
        obtain ⟨rfl, rfl⟩ : body = bd ∧ hrefs = ls := by
          injection hnet2 with h3
          exact ⟨congrArg Prod.fst h3, congrArg Prod.snd h3⟩
        exact mem_putPage.mpr (Or.inl rfl)
  | wSubDone k th hth hph => exact ⟨h1, h2⟩
  | wSubShut k th t rest hth hph hsh => exact ⟨h1, h2⟩
  | wSub k th t rest hth hph hsh => exact ⟨h1, h2⟩

/-- Every task in the system and every stored page sits in the seed's
network domain: the netloc filter guards every submission. -/
def DomainInv (p : Params) (c : Config) : Prop :=
  (∀ q ∈ c.queue, netloc q.1.url = netloc p.base) ∧
  (∀ th ∈ c.running, netloc th.task.url = netloc p.base ∧
      ∀ cs, th.phase = .submitting cs → ∀ t ∈ cs, netloc t.url = netloc p.base) ∧
  (∀ e ∈ c.pages, netloc e.1 = netloc p.base)

theorem childTasks_netloc (p : Params) (t : CrawlTask) (hrefs : List String) :
    ∀ t2 ∈ childTasks p t hrefs, netloc t2.url = netloc p.base := by
  intro t2 ht2
  rcases List.mem_map.mp ht2 with ⟨u2, hu2, rfl⟩
  exact of_decide_eq_true (List.mem_filter.mp hu2).2

theorem childTasks_depth (p : Params) (t : CrawlTask) (hrefs : List String) :
    ∀ t2 ∈ childTasks p t hrefs, t2.depth = t.depth + 1 := by
  intro t2 ht2
  rcases List.mem_map.mp ht2 with ⟨u2, hu2, rfl⟩
  rfl

theorem mem_of_getElem {α : Type} {l : List α} {k : Nat} {a : α}
    (h : l[k]? = some a) : a ∈ l := by
  rcases List.getElem?_eq_some.mp h with ⟨hlt, he⟩
  exact he ▸ List.getElem_mem hlt

theorem domain_pres (p : Params) :
    ∀ c a, DomainInv p c → DomainInv p (step p c a) := by
  intro c a h
  obtain ⟨hq0, hr0, hp0⟩ := h
  have hsc := step_cases p c a
  generalize step p c a = c2 at hsc ⊢
  cases hsc with
  | stuck => exact ⟨hq0, hr0, hp0⟩
  | start t f rest hq hlen =>
    refine ⟨?_, ?_, hp0⟩
    · intro q hq2
      exact hq0 q (hq ▸ List.mem_cons_of_mem _ hq2)
    · intro th hth
      rcases List.mem_append.mp hth with hth | hth
      · exact hr0 th hth
      · rcases List.mem_singleton.mp hth with rfl
        refine ⟨(hq0 _ (hq ▸ List.mem_cons_self _ _)), ?_⟩
        intro cs hcs
        cases hcs
  | mainSeed hm hs => exact ⟨hq0, hr0, hp0⟩
  | mainShut hm => exact ⟨hq0, hr0, hp0⟩
  | mainRet hm hr hq => exact ⟨hq0, hr0, hp0⟩
  | wSkip k th hth hph hcond =>
    refine ⟨hq0, ?_, hp0⟩
    intro th2 hth2
    exact hr0 th2 (mem_of_mem_eraseIdx hth2)
  | wPass k th hth hph hcond =>
    refine ⟨hq0, ?_, hp0⟩
    intro th2 hth2
    rcases mem_of_mem_set hth2 with rfl | hth2
    · exact ⟨(hr0 th (mem_of_getElem hth)).1, by intro cs hcs; cases hcs⟩
    · exact hr0 th2 hth2
  | wAdd k th hth hph =>
    refine ⟨hq0, ?_, hp0⟩
    intro th2 hth2
    rcases mem_of_mem_set hth2 with rfl | hth2
    · exact ⟨(hr0 th (mem_of_getElem hth)).1, by intro cs hcs; cases hcs⟩
    · exact hr0 th2 hth2
  | wFetchFail k th hth hph hnet =>
    refine ⟨hq0, ?_, hp0⟩
    intro th2 hth2
    exact hr0 th2 (mem_of_mem_eraseIdx hth2)
  | wFetchOk k th body hrefs hth hph hnet =>
    refine ⟨hq0, ?_, ?_⟩
    · intro th2 hth2
      rcases mem_of_mem_set hth2 with rfl | hth2
      · refine ⟨(hr0 th (mem_of_getElem hth)).1, ?_⟩
        intro cs hcs
        cases hcs
        exact childTasks_netloc p th.task hrefs
      · exact hr0 th2 hth2
    · intro e he
      rcases mem_putPage.mp he with rfl | ⟨he, hne⟩
      · exact (hr0 th (mem_of_getElem hth)).1
      · exact hp0 e he
  | wSubDone k th hth hph =>
    refine ⟨hq0, ?_, hp0⟩
    intro th2 hth2
    exact hr0 th2 (mem_of_mem_eraseIdx hth2)
  | wSubShut k th t rest hth hph hsh =>
    refine ⟨hq0, ?_, hp0⟩
    intro th2 hth2
    exact hr0 th2 (mem_of_mem_eraseIdx hth2)
  | wSub k th t rest hth hph hsh =>
    refine ⟨?_, ?_, hp0⟩
    · intro q hq2
      rcases List.mem_append.mp hq2 with hq2 | hq2
      · exact hq0 q hq2
      · rcases List.mem_singleton.mp hq2 with rfl
        exact (hr0 th (mem_of_getElem hth)).2 (t :: rest) hph t (List.mem_cons_self _ _)
    · intro th2 hth2
      rcases mem_of_mem_set hth2 with rfl | hth2
      · refine ⟨(hr0 th (mem_of_getElem hth)).1, ?_⟩
        intro cs hcs
        cases hcs
        intro t2 ht2
        exact (hr0 th (mem_of_getElem hth)).2 (t :: rest) hph t2 (List.mem_cons_of_mem _ ht2)
      · exact hr0 th2 hth2

/-- Once `crawl` has returned, the pool is drained: no worker is running
and no accepted task is still queued. -/
def ReturnedInv (c : Config) : Prop :=
  c.main = .returned → c.running = [] ∧ c.queue = []

theorem returned_pres (p : Params) :
    ∀ c a, ReturnedInv c → ReturnedInv (step p c a) := by
  intro c a h
  have hsc := step_cases p c a
  generalize step p c a = c2 at hsc ⊢
  cases hsc with
  | stuck => exact h
  | start t f rest hq hlen =>
    intro hm
    rcases h hm with ⟨_, hq2⟩
    rw [hq2] at hq
    cases hq
  | mainSeed hm hs => intro hm2; cases hm2
  | mainShut hm => intro hm2; cases hm2
  | mainRet hm hr hq => intro _; exact ⟨hr, hq⟩
  | wSkip k th hth hph hcond =>
    intro hm
    rcases h hm with ⟨hr, _⟩
    rw [hr] at hth
    cases hth
  | wPass k th hth hph hcond =>
    intro hm
    rcases h hm with ⟨hr, _⟩
    rw [hr] at hth
    cases hth
  | wAdd k th hth hph =>
    intro hm
    rcases h hm with ⟨hr, _⟩
    rw [hr] at hth
    cases hth
  | wFetchFail k th hth hph hnet =>
    intro hm
    rcases h hm with ⟨hr, _⟩
    rw [hr] at hth
    cases hth
  | wFetchOk k th body hrefs hth hph hnet =>
    intro hm
    rcases h hm with ⟨hr, _⟩
    rw [hr] at hth
    cases hth
  | wSubDone k th hth hph =>
    intro hm
    rcases h hm with ⟨hr, _⟩
    rw [hr] at hth
    cases hth
  | wSubShut k th t rest hth hph hsh =>
    intro hm
    rcases h hm with ⟨hr, _⟩
    rw [hr] at hth
    cases hth
  | wSub k th t rest hth hph hsh =>
    intro hm
    rcases h hm with ⟨hr, _⟩
    rw [hr] at hth
    cases hth

theorem visited_mono_step (p : Params) (c : Config) (a : Nat) :
    ∀ u ∈ c.visited, u ∈ (step p c a).visited := by
  have hsc := step_cases p c a
  generalize step p c a = c2 at hsc ⊢
  cases hsc with
  | wAdd k th hth hph => intro u hu; exact List.mem_cons_of_mem _ hu
  | _ => intro u hu; exact hu

theorem visited_mono_run (p : Params) (s : List Nat) (c : Config) :
    ∀ u ∈ c.visited, u ∈ (run p c s).visited := by
  induction s generalizing c with
  | nil => intro u hu; exact hu
  | cons a s ih =>
    intro u hu
    exact ih (step p c a) u (visited_mono_step p c a u hu)

/-- Invariant of the test-and-set variant: for every URL, at most one task
has ever entered its fetch phase (counting completed fetch-log entries and
the at most one worker currently fetching), and nothing past the check
exists for a URL outside the visited set. -/
def NoDupFetchInv (c : Config) : Prop :=
  ∀ u : String,
    (u ∉ c.visited →
      c.fetchLog.count u = 0 ∧ c.running.countP (isPastCheckAt u) = 0) ∧
    c.fetchLog.count u + c.running.countP (isFetchingAt u) ≤ 1

theorem noDupFetch_pres (p : Params) :
    ∀ c a, NoDupFetchInv c → NoDupFetchInv (stepTS p c a) := by
  intro c a h
  have hsc := stepTS_cases p c a
  generalize stepTS p c a = c2 at hsc ⊢
  cases hsc with
  | stuck => exact h
  | start t f rest hq hlen =>
    intro u
    dsimp only
    have hnew1 : List.countP (isPastCheckAt u) [Worker.mk t .checking f] = 0 := by
      simp [isPastCheckAt]
    have hnew2 : List.countP (isFetchingAt u) [Worker.mk t .checking f] = 0 := by
      simp [isFetchingAt]
    have h2 := (h u).2
    refine ⟨?_, ?_⟩
    · intro hu
      rcases (h u).1 hu with ⟨ha, hb⟩
      rw [List.countP_append, hnew1, hb]
      exact ⟨ha, rfl⟩
    · rw [List.countP_append, hnew2]
      omega
  | mainSeed hm hs => exact h
  | mainShut hm => exact h
  | mainRet hm hr hq => exact h
  | wSkip k th hth hph hcond =>
    intro u
    dsimp only [finishAt]
    have hep := countP_eraseIdx_add (isPastCheckAt u) hth
    have hef := countP_eraseIdx_add (isFetchingAt u) hth
    have h2 := (h u).2
    refine ⟨?_, ?_⟩
    · intro hu
      rcases (h u).1 hu with ⟨ha, hb⟩
      refine ⟨ha, ?_⟩
      omega
    · omega
  | wTS k th hth hph hcond =>
    push_neg at hcond
    obtain ⟨hdep, hvis⟩ := hcond
    intro u
    dsimp only
    have hsp := countP_set_add (isPastCheckAt u) (x := { th with phase := .fetching }) hth
    have hsf := countP_set_add (isFetchingAt u) (x := { th with phase := .fetching }) hth
    have h2 := (h u).2
    by_cases hu0 : u = th.task.url
    · rcases (h u).1 (by rw [hu0]; exact hvis) with ⟨ha, hb⟩
      have hfle : c.running.countP (isFetchingAt u) ≤
          c.running.countP (isPastCheckAt u) := by
        refine List.countP_mono_left ?_
        intro th2 _ hf
        simp only [isFetchingAt, Bool.and_eq_true] at hf
        simp only [isPastCheckAt, Bool.and_eq_true]
        refine ⟨hf.1, ?_⟩
        rcases hf with ⟨_, hf2⟩
        cases hph2 : th2.phase <;> simp [hph2] at hf2 ⊢
      have e3 : isFetchingAt u th = false := by
        simp [isFetchingAt, hph]
      have e4 : isFetchingAt u { th with phase := WorkerPhase.fetching } = true := by
        simp [isFetchingAt, hu0]
      rw [e3, e4] at hsf
      norm_num at hsf
      refine ⟨?_, ?_⟩
      · intro hu
        exact absurd (by rw [hu0]; exact List.mem_cons_self _ _) hu
      · dsimp only
        omega
    · have e1 : isPastCheckAt u th = false := by
        simp [isPastCheckAt, hph]
      have e2 : isPastCheckAt u { th with phase := WorkerPhase.fetching } = false := by
        simp [isPastCheckAt, Ne.symm hu0]
      have e3 : isFetchingAt u th = false := by
        simp [isFetchingAt, hph]
      have e4 : isFetchingAt u { th with phase := WorkerPhase.fetching } = false := by
        simp [isFetchingAt, Ne.symm hu0]
      rw [e1, e2] at hsp
      rw [e3, e4] at hsf
      refine ⟨?_, ?_⟩
      · intro hu
        have hu2 : u ∉ c.visited := fun hx => hu (List.mem_cons_of_mem _ hx)
        rcases (h u).1 hu2 with ⟨ha, hb⟩
        refine ⟨ha, ?_⟩
        omega
      · dsimp only
        omega
  | wFetchFail k th hth hph hnet =>
    intro u
    dsimp only [finishAt]
    have hvis : th.task.url ∈ c.visited := by
      by_contra hvis
      rcases (h th.task.url).1 hvis with ⟨_, hb⟩
      have : 1 ≤ c.running.countP (isPastCheckAt th.task.url) := by
        refine countP_pos_of_mem (mem_of_getElem hth) ?_
        simp [isPastCheckAt, hph]
      omega
    have hep := countP_eraseIdx_add (isPastCheckAt u) hth
    have hef := countP_eraseIdx_add (isFetchingAt u) hth
    have h2 := (h u).2
    by_cases hu0 : u = th.task.url
    · refine ⟨fun hu => absurd (by rw [hu0]; exact hvis) hu, ?_⟩
      have e1 : isFetchingAt u th = true := by
        simp [isFetchingAt, hph, hu0]
      rw [e1] at hef
      norm_num at hef
      have hcnt : (c.fetchLog ++ [th.task.url]).count u = c.fetchLog.count u + 1 := by
        simp [List.count_append, hu0]
      rw [hcnt]
      omega
    · have hcnt : (c.fetchLog ++ [th.task.url]).count u = c.fetchLog.count u := by
        simp [List.count_append, List.count_singleton', hu0]
      rw [hcnt]
      refine ⟨?_, ?_⟩
      · intro hu
        rcases (h u).1 hu with ⟨ha, hb⟩
        exact ⟨ha, by omega⟩
      · dsimp only
        omega
  | wFetchOk k th body hrefs hth hph hnet =>
    intro u
    dsimp only
    have hvis : th.task.url ∈ c.visited := by
      by_contra hvis
      rcases (h th.task.url).1 hvis with ⟨_, hb⟩
      have : 1 ≤ c.running.countP (isPastCheckAt th.task.url) := by
        refine countP_pos_of_mem (mem_of_getElem hth) ?_
        simp [isPastCheckAt, hph]
      omega
    have hsp := countP_set_add (isPastCheckAt u)
      (x := { th with phase := .submitting (childTasks p th.task hrefs) }) hth
    have hsf := countP_set_add (isFetchingAt u)
      (x := { th with phase := .submitting (childTasks p th.task hrefs) }) hth
    have h2 := (h u).2
    by_cases hu0 : u = th.task.url
    · refine ⟨fun hu => absurd (by rw [hu0]; exact hvis) hu, ?_⟩
      have e1 : isFetchingAt u th = true := by
        simp [isFetchingAt, hph, hu0]
      have e2 : isFetchingAt u
          { th with phase := WorkerPhase.submitting (childTasks p th.task hrefs) } = false := by
        simp [isFetchingAt]
      rw [e1, e2] at hsf
      norm_num at hsf
      have hcnt : (c.fetchLog ++ [th.task.url]).count u = c.fetchLog.count u + 1 := by
        simp [List.count_append, hu0]
      rw [hcnt]
      omega
    · have hcnt : (c.fetchLog ++ [th.task.url]).count u = c.fetchLog.count u := by
        simp [List.count_append, List.count_singleton', hu0]
      have e1 : isPastCheckAt u th = isPastCheckAt u
          { th with phase := WorkerPhase.submitting (childTasks p th.task hrefs) } := by
        simp [isPastCheckAt, hph]
      have e3 : isFetchingAt u th = false := by
        simp [isFetchingAt, Ne.symm hu0]
      have e4 : isFetchingAt u
          { th with phase := WorkerPhase.submitting (childTasks p th.task hrefs) } = false := by
        simp [isFetchingAt, Ne.symm hu0]
      rw [e3, e4] at hsf
      rw [← e1] at hsp
      rw [hcnt]
      refine ⟨?_, ?_⟩
      · intro hu
        rcases (h u).1 hu with ⟨ha, hb⟩
        exact ⟨ha, by omega⟩
      · dsimp only
        omega
  | wSubDone k th hth hph =>
    intro u
    dsimp only [finishAt]
    have hep := countP_eraseIdx_add (isPastCheckAt u) hth
    have hef := countP_eraseIdx_add (isFetchingAt u) hth
    have h2 := (h u).2
    refine ⟨?_, ?_⟩
    · intro hu
      rcases (h u).1 hu with ⟨ha, hb⟩
      exact ⟨ha, by omega⟩
    · omega
  | wSubShut k th t rest hth hph hsh =>
    intro u
    dsimp only [finishAt]
    have hep := countP_eraseIdx_add (isPastCheckAt u) hth
    have hef := countP_eraseIdx_add (isFetchingAt u) hth
    have h2 := (h u).2
    refine ⟨?_, ?_⟩
    · intro hu
      rcases (h u).1 hu with ⟨ha, hb⟩
      exact ⟨ha, by omega⟩
    · omega
  | wSub k th t rest hth hph hsh =>
    intro u
    dsimp only
    have hsp := countP_set_add (isPastCheckAt u)
      (x := { th with phase := .submitting rest }) hth
    have hsf := countP_set_add (isFetchingAt u)
      (x := { th with phase := .submitting rest }) hth
    have e1 : isPastCheckAt u th = isPastCheckAt u
        { th with phase := WorkerPhase.submitting rest } := by
      simp [isPastCheckAt, hph]
    have e2 : isFetchingAt u th = isFetchingAt u
        { th with phase := WorkerPhase.submitting rest } := by
      simp [isFetchingAt, hph]
    rw [← e1] at hsp
    rw [← e2] at hsf
    have h2 := (h u).2
    refine ⟨?_, ?_⟩
    · intro hu
      rcases (h u).1 hu with ⟨ha, hb⟩
      exact ⟨ha, by omega⟩
    · omega

/-- The crawl invariant at `max_depth = 0` with a reachable seed of body
`b`: every non-seed task sits at depth at least 1 and, being over the
depth bound, never passes its check; there is exactly one seed token in
the system (queued, running, or completed); and the shared state is
determined by how far the seed task has progressed. -/
def Inv7 (p : Params) (b : String) (c : Config) : Prop :=
  (∀ q ∈ c.queue, q.2 = false → 1 ≤ q.1.depth) ∧
  (∀ th ∈ c.running, th.isSeed = false → 1 ≤ th.task.depth ∧ th.phase = .checking) ∧
  (c.queue.countP seedQ + c.running.countP seedW
      + (if c.seedDone then 1 else 0) = 1) ∧
  (c.main ≠ .awaitSeed → c.seedDone = true) ∧
  (∀ q ∈ c.queue, q.2 = true →
      q.1 = CrawlTask.mk p.base 0 ∧ c.visited = [] ∧ c.pages = [] ∧ c.fetchLog = []) ∧
  (∀ th ∈ c.running, th.isSeed = true →
      th.task = CrawlTask.mk p.base 0 ∧
      (th.phase = .checking → c.visited = [] ∧ c.pages = [] ∧ c.fetchLog = []) ∧
      (th.phase = .adding → c.visited = [] ∧ c.pages = [] ∧ c.fetchLog = []) ∧
      (th.phase = .fetching →
          c.visited = [p.base] ∧ c.pages = [] ∧ c.fetchLog = []) ∧
      (∀ cs, th.phase = .submitting cs →
          c.visited = [p.base] ∧ c.pages = [(p.base, b)] ∧ c.fetchLog = [p.base] ∧
          ∀ t ∈ cs, 1 ≤ t.depth)) ∧
  (c.seedDone = true →
      c.visited = [p.base] ∧ c.pages = [(p.base, b)] ∧ c.fetchLog = [p.base])

theorem putPage_nil (u b : String) : putPage [] u b = [(u, b)] := rfl

theorem seed_token_facts {c : Config} {k : Nat} {th : Worker}
    (hth : c.running[k]? = some th) (hseed : th.isSeed = true)
    (h3 : c.queue.countP seedQ + c.running.countP seedW
        + (if c.seedDone then 1 else 0) = 1) :
    c.queue.countP seedQ = 0 ∧ c.seedDone = false ∧
      (c.running.eraseIdx k).countP seedW = 0 := by
  have hpos : 1 ≤ c.running.countP seedW :=
    countP_pos_of_mem (mem_of_getElem hth) (by simp [seedW, hseed])
  have he := countP_eraseIdx_add seedW hth
  rw [show (if seedW th = true then 1 else 0) = 1 from by simp [seedW, hseed]] at he
  have hsd : c.seedDone = false := by
    cases hsd : c.seedDone with
    | true => rw [hsd, if_pos rfl] at h3; omega
    | false => rfl
  rw [hsd, if_neg Bool.false_ne_true] at h3
  exact ⟨by omega, hsd, by omega⟩

theorem inv7_pres (p : Params) (b : String) (hs : List String)
    (hd0 : p.maxDepth = 0) (hnet : p.net p.base = some (b, hs)) :
    ∀ c a, Inv7 p b c → Inv7 p b (step p c a) := by
  intro c a h
  obtain ⟨h1, h2, h3, h4, h5, h6, h7⟩ := h
  have hsc := step_cases p c a
  generalize step p c a = c2 at hsc ⊢
  cases hsc with
  | stuck => exact ⟨h1, h2, h3, h4, h5, h6, h7⟩
  | start t f rest hq hlen =>
    have hhead : (t, f) ∈ c.queue := hq ▸ List.mem_cons_self _ _
    refine ⟨?_, ?_, ?_, h4, ?_, ?_, h7⟩
    · intro q hq2 hq2f
      exact h1 q (hq ▸ List.mem_cons_of_mem _ hq2) hq2f
    · intro th hth hthf
      rcases List.mem_append.mp hth with hth | hth
      · exact h2 th hth hthf
      · rcases List.mem_singleton.mp hth with rfl
        exact ⟨h1 (t, f) hhead hthf, rfl⟩
    · dsimp only
      rw [hq] at h3
      simp only [List.countP_cons, List.countP_append, List.countP_nil] at h3 ⊢
      have hw : seedW (Worker.mk t .checking f) = seedQ (t, f) := rfl
      rw [hw]
      omega
    · intro q hq2 hq2t
      exact h5 q (hq ▸ List.mem_cons_of_mem _ hq2) hq2t
    · intro th hth htht
      rcases List.mem_append.mp hth with hth | hth
      · exact h6 th hth htht
      · rcases List.mem_singleton.mp hth with rfl
        obtain ⟨htask, hv, hpg, hlog⟩ := h5 (t, f) hhead htht
        refine ⟨htask, fun _ => ⟨hv, hpg, hlog⟩, ?_, ?_, ?_⟩
        · intro hph; cases hph
        · intro hph; cases hph
        · intro cs hph; cases hph
  | mainSeed hm hsd =>
    exact ⟨h1, h2, h3, fun _ => hsd, h5, h6, h7⟩
  | mainShut hm =>
    refine ⟨h1, h2, h3, ?_, h5, h6, h7⟩
    intro _
    exact h4 (by rw [hm]; intro hx; cases hx)
  | mainRet hm hr hq =>
    refine ⟨h1, h2, h3, ?_, h5, h6, h7⟩
    intro _
    exact h4 (by rw [hm]; intro hx; cases hx)
  | wSkip k th hth hph hcond =>
    have hmem : th ∈ c.running := mem_of_getElem hth
    cases hseed : th.isSeed with
    | true =>
      exfalso
      obtain ⟨htask, hchk, _, _, _⟩ := h6 th hmem hseed
      obtain ⟨hv, _, _⟩ := hchk hph
      rcases hcond with hcond | hcond
      · rw [htask, hd0] at hcond
        simp at hcond
      · rw [hv] at hcond; cases hcond
    | false =>
      have hef := countP_eraseIdx_add seedW hth
      rw [show (if seedW th = true then 1 else 0) = 0 from by simp [seedW, hseed]] at hef
      refine ⟨h1, ?_, ?_, ?_, ?_, ?_, ?_⟩
      · intro th2 hth2 hf
        exact h2 th2 (mem_of_mem_eraseIdx hth2) hf
      · dsimp only [finishAt]
        rw [Bool.or_false]
        omega
      · intro hmn
        dsimp only [finishAt] at hmn ⊢
        rw [Bool.or_false]
        exact h4 hmn
      · intro q hq2 hq2t
        exact h5 q hq2 hq2t
      · intro th2 hth2 ht2
        exact h6 th2 (mem_of_mem_eraseIdx hth2) ht2
      · dsimp only [finishAt]
        rw [Bool.or_false]
        exact h7
  | wPass k th hth hph hcond =>
    have hmem : th ∈ c.running := mem_of_getElem hth
    cases hseed : th.isSeed with
    | false =>
      exfalso
      obtain ⟨hdep, _⟩ := h2 th hmem hseed
      exact hcond (Or.inl (by rw [hd0]; omega))
    | true =>
      obtain ⟨hq0, hsd0, her0⟩ := seed_token_facts hth hseed h3
      obtain ⟨htask, hchk, _, _, _⟩ := h6 th hmem hseed
      obtain ⟨hv, hpg, hlog⟩ := hchk hph
      have hset := countP_set_add seedW (x := { th with phase := WorkerPhase.adding }) hth
      rw [show (if seedW th = true then 1 else 0) = 1 from by simp [seedW, hseed],
          show (if seedW { th with phase := WorkerPhase.adding } = true then 1 else 0) = 1
            from by simp [seedW, hseed]] at hset
      rw [hseed] at hset
      refine ⟨h1, ?_, ?_, h4, h5, ?_, h7⟩
      · intro th2 hth2 hf
        rcases mem_of_mem_set hth2 with rfl | hth2
        · simp at hf
        · exact h2 th2 hth2 hf
      · dsimp only
        omega
      · intro th2 hth2 ht2
        rcases mem_set_elim hth2 with rfl | ⟨i, hik, hi⟩
        · refine ⟨htask, ?_, fun _ => ⟨hv, hpg, hlog⟩, ?_, ?_⟩
          · intro hx; cases hx
          · intro hx; cases hx
          · intro cs hx; cases hx
        · have : th2 ∈ c.running.eraseIdx k :=
            List.mem_eraseIdx_iff_getElem?.mpr ⟨i, hik, hi⟩
          have := countP_eq_zero_forall her0 th2 this
          rw [show seedW th2 = th2.isSeed from rfl, ht2] at this
          cases this
  | wAdd k th hth hph =>
    have hmem : th ∈ c.running := mem_of_getElem hth
    cases hseed : th.isSeed with
    | false =>
      exfalso
      obtain ⟨_, hchk⟩ := h2 th hmem hseed
      rw [hchk] at hph
      cases hph
    | true =>
      obtain ⟨hq0, hsd0, her0⟩ := seed_token_facts hth hseed h3
      obtain ⟨htask, _, hadd, _, _⟩ := h6 th hmem hseed
      obtain ⟨hv, hpg, hlog⟩ := hadd hph
      have hset := countP_set_add seedW (x := { th with phase := WorkerPhase.fetching }) hth
      rw [show (if seedW th = true then 1 else 0) = 1 from by simp [seedW, hseed],
          show (if seedW { th with phase := WorkerPhase.fetching } = true then 1 else 0) = 1
            from by simp [seedW, hseed]] at hset
      rw [hseed] at hset
      have hvnew : th.task.url :: c.visited = [p.base] := by
        rw [hv, htask]
      refine ⟨h1, ?_, ?_, h4, ?_, ?_, ?_⟩
      · intro th2 hth2 hf
        rcases mem_of_mem_set hth2 with rfl | hth2
        · simp at hf
        · exact h2 th2 hth2 hf
      · dsimp only
        omega
      · intro q hq2 hq2t
        exfalso
        have := countP_eq_zero_forall hq0 q hq2
        rw [show seedQ q = q.2 from rfl, hq2t] at this
        cases this
      · intro th2 hth2 ht2
        rcases mem_set_elim hth2 with rfl | ⟨i, hik, hi⟩
        · refine ⟨htask, ?_, ?_, fun _ => ⟨hvnew, hpg, hlog⟩, ?_⟩
          · intro hx; cases hx
          · intro hx; cases hx
          · intro cs hx; cases hx
        · have : th2 ∈ c.running.eraseIdx k :=
            List.mem_eraseIdx_iff_getElem?.mpr ⟨i, hik, hi⟩
          have := countP_eq_zero_forall her0 th2 this
          rw [show seedW th2 = th2.isSeed from rfl, ht2] at this
          cases this
      · intro hsd
        rw [hsd] at hsd0
        cases hsd0
  | wFetchFail k th hth hph hnet2 =>
    have hmem : th ∈ c.running := mem_of_getElem hth
    cases hseed : th.isSeed with
    | false =>
      exfalso
      obtain ⟨_, hchk⟩ := h2 th hmem hseed
      rw [hchk] at hph
      cases hph
    | true =>
      exfalso
      obtain ⟨htask, _, _, _, _⟩ := h6 th hmem hseed
      rw [htask] at hnet2
      dsimp only at hnet2
      rw [hnet] at hnet2
      cases hnet2
  | wFetchOk k th body hrefs hth hph hnet2 =>
    have hmem : th ∈ c.running := mem_of_getElem hth
    cases hseed : th.isSeed with
    | false =>
      exfalso
      obtain ⟨_, hchk⟩ := h2 th hmem hseed
      rw [hchk] at hph
      cases hph
    | true =>
      obtain ⟨hq0, hsd0, her0⟩ := seed_token_facts hth hseed h3
      obtain ⟨htask, _, _, hfet, _⟩ := h6 th hmem hseed
      obtain ⟨hv, hpg, hlog⟩ := hfet hph
      have hub : th.task.url = p.base := by rw [htask]
      have hbody : body = b ∧ hrefs = hs := by
        rw [hub, hnet] at hnet2
        injection hnet2 with hx
        exact ⟨(congrArg Prod.fst hx).symm, (congrArg Prod.snd hx).symm⟩
      obtain ⟨rfl, rfl⟩ := hbody
      have hset := countP_set_add seedW
        (x := { th with phase := WorkerPhase.submitting (childTasks p th.task hrefs) }) hth
      rw [show (if seedW th = true then 1 else 0) = 1 from by simp [seedW, hseed],
          show (if seedW { th with
              phase := WorkerPhase.submitting (childTasks p th.task hrefs) } = true
              then 1 else 0) = 1
            from by simp [seedW, hseed]] at hset
      rw [hseed] at hset
      have hpages : putPage c.pages th.task.url body = [(p.base, body)] := by
        rw [hpg, hub, putPage_nil]
      have hlognew : c.fetchLog ++ [th.task.url] = [p.base] := by
        rw [hlog, hub]
        rfl
      refine ⟨h1, ?_, ?_, h4, ?_, ?_, ?_⟩
      · intro th2 hth2 hf
        rcases mem_of_mem_set hth2 with rfl | hth2
        · simp at hf
        · exact h2 th2 hth2 hf
      · dsimp only
        omega
      · intro q hq2 hq2t
        exfalso
        have := countP_eq_zero_forall hq0 q hq2
        rw [show seedQ q = q.2 from rfl, hq2t] at this
        cases this
      · intro th2 hth2 ht2
        rcases mem_set_elim hth2 with rfl | ⟨i, hik, hi⟩
        · refine ⟨htask, ?_, ?_, ?_, ?_⟩
          · intro hx; cases hx
          · intro hx; cases hx
          · intro hx; cases hx
          · intro cs hx
            have hcs : cs = childTasks p th.task hrefs := by
              injection hx with hx2
              exact hx2.symm
            subst hcs
            refine ⟨hv, hpages, hlognew, ?_⟩
            intro t2 ht2m
            have := childTasks_depth p th.task hrefs t2 ht2m
            omega
        · have : th2 ∈ c.running.eraseIdx k :=
            List.mem_eraseIdx_iff_getElem?.mpr ⟨i, hik, hi⟩
          have := countP_eq_zero_forall her0 th2 this
          rw [show seedW th2 = th2.isSeed from rfl, ht2] at this
          cases this
      · intro hsd
        rw [hsd] at hsd0
        cases hsd0
  | wSubDone k th hth hph =>
    have hmem : th ∈ c.running := mem_of_getElem hth
    cases hseed : th.isSeed with
    | false =>
      exfalso
      obtain ⟨_, hchk⟩ := h2 th hmem hseed
      rw [hchk] at hph
      cases hph
    | true =>
      obtain ⟨hq0, hsd0, her0⟩ := seed_token_facts hth hseed h3
      obtain ⟨htask, _, _, _, hsub⟩ := h6 th hmem hseed
      obtain ⟨hv, hpg, hlog, _⟩ := hsub [] hph
      have hef := countP_eraseIdx_add seedW hth
      rw [show (if seedW th = true then 1 else 0) = 1 from by simp [seedW, hseed]] at hef
      refine ⟨h1, ?_, ?_, ?_, ?_, ?_, ?_⟩
      · intro th2 hth2 hf
        exact h2 th2 (mem_of_mem_eraseIdx hth2) hf
      · dsimp only [finishAt]
        rw [Bool.or_true, if_pos rfl]
        omega
      · intro _
        dsimp only [finishAt]
        rw [Bool.or_true]
      · intro q hq2 hq2t
        exfalso
        have := countP_eq_zero_forall hq0 q hq2
        rw [show seedQ q = q.2 from rfl, hq2t] at this
        cases this
      · intro th2 hth2 ht2
        exfalso
        have := countP_eq_zero_forall her0 th2 hth2
        rw [show seedW th2 = th2.isSeed from rfl, ht2] at this
        cases this
      · intro _
        exact ⟨hv, hpg, hlog⟩
  | wSubShut k th t rest hth hph hsh =>
    have hmem : th ∈ c.running := mem_of_getElem hth
    cases hseed : th.isSeed with
    | false =>
      exfalso
      obtain ⟨_, hchk⟩ := h2 th hmem hseed
      rw [hchk] at hph
      cases hph
    | true =>
      obtain ⟨hq0, hsd0, her0⟩ := seed_token_facts hth hseed h3
      obtain ⟨htask, _, _, _, hsub⟩ := h6 th hmem hseed
      obtain ⟨hv, hpg, hlog, _⟩ := hsub (t :: rest) hph
      have hef := countP_eraseIdx_add seedW hth
      rw [show (if seedW th = true then 1 else 0) = 1 from by simp [seedW, hseed]] at hef
      refine ⟨h1, ?_, ?_, ?_, ?_, ?_, ?_⟩
      · intro th2 hth2 hf
        exact h2 th2 (mem_of_mem_eraseIdx hth2) hf
      · dsimp only [finishAt]
        rw [Bool.or_true, if_pos rfl]
        omega
      · intro _
        dsimp only [finishAt]
        rw [Bool.or_true]
      · intro q hq2 hq2t
        exfalso
        have := countP_eq_zero_forall hq0 q hq2
        rw [show seedQ q = q.2 from rfl, hq2t] at this
        cases this
      · intro th2 hth2 ht2
        exfalso
        have := countP_eq_zero_forall her0 th2 hth2
        rw [show seedW th2 = th2.isSeed from rfl, ht2] at this
        cases this
      · intro _
        exact ⟨hv, hpg, hlog⟩
  | wSub k th t rest hth hph hsh =>
    have hmem : th ∈ c.running := mem_of_getElem hth
    cases hseed : th.isSeed with
    | false =>
      exfalso
      obtain ⟨_, hchk⟩ := h2 th hmem hseed
      rw [hchk] at hph
      cases hph
    | true =>
      obtain ⟨hq0, hsd0, her0⟩ := seed_token_facts hth hseed h3
      obtain ⟨htask, _, _, _, hsub⟩ := h6 th hmem hseed
      obtain ⟨hv, hpg, hlog, hdeps⟩ := hsub (t :: rest) hph
      have hset := countP_set_add seedW
        (x := { th with phase := WorkerPhase.submitting rest }) hth
      rw [show (if seedW th = true then 1 else 0) = 1 from by simp [seedW, hseed],
          show (if seedW { th with phase := WorkerPhase.submitting rest } = true
              then 1 else 0) = 1
            from by simp [seedW, hseed]] at hset
      rw [hseed] at hset
      refine ⟨?_, ?_, ?_, h4, ?_, ?_, ?_⟩
      · intro q hq2 hq2f
        rcases List.mem_append.mp hq2 with hq2 | hq2
        · exact h1 q hq2 hq2f
        · rcases List.mem_singleton.mp hq2 with rfl
          exact hdeps t (List.mem_cons_self _ _)
      · intro th2 hth2 hf
        rcases mem_of_mem_set hth2 with rfl | hth2
        · simp at hf
        · exact h2 th2 hth2 hf
      · dsimp only
        rw [List.countP_append]
        have hone : List.countP seedQ [(t, false)] = 0 := by simp [seedQ]
        rw [hone]
        omega
      · intro q hq2 hq2t
        rcases List.mem_append.mp hq2 with hq2 | hq2
        · exfalso
          have := countP_eq_zero_forall hq0 q hq2
          rw [show seedQ q = q.2 from rfl, hq2t] at this
          cases this
        · rcases List.mem_singleton.mp hq2 with rfl
          cases hq2t
      · intro th2 hth2 ht2
        rcases mem_set_elim hth2 with rfl | ⟨i, hik, hi⟩
        · refine ⟨htask, ?_, ?_, ?_, ?_⟩
          · intro hx; cases hx
          · intro hx; cases hx
          · intro hx; cases hx
          · intro cs hx
            have hcs : cs = rest := by
              injection hx with hx2
              exact hx2.symm
            subst hcs
            refine ⟨hv, hpg, hlog, ?_⟩
            intro t2 ht2m
            exact hdeps t2 (List.mem_cons_of_mem _ ht2m)
        · have : th2 ∈ c.running.eraseIdx k :=
            List.mem_eraseIdx_iff_getElem?.mpr ⟨i, hik, hi⟩
          have := countP_eq_zero_forall her0 th2 this
          rw [show seedW th2 = th2.isSeed from rfl, ht2] at this
          cases this
      · intro hsd
        rw [hsd] at hsd0
        cases hsd0

/-! ## Retry-loop lemmas -/

theorem fetchLoop_ok (oracle : Nat → Resp) (b : String) :
    ∀ (k j fuel : Nat), (∀ i, i < k → oracle (j + i) = .err) →
      oracle (j + k) = .ok b → k < fuel →
      fetchLoop oracle fuel j = (some b, k + 1) := by
  intro k
  induction k with
  | zero =>
    intro j fuel _ hok hlt
    obtain ⟨f, rfl⟩ : ∃ f, fuel = f + 1 := ⟨fuel - 1, by omega⟩
    have h0 : oracle j = .ok b := by simpa using hok
    simp [fetchLoop, h0]
  | succ k ih =>
    intro j fuel herr hok hlt
    obtain ⟨f, rfl⟩ : ∃ f, fuel = f + 1 := ⟨fuel - 1, by omega⟩
    have h0 : oracle j = .err := by simpa using herr 0 (by omega)
    have ih2 : fetchLoop oracle f (j + 1) = (some b, k + 1) := by
      refine ih (j + 1) f ?_ ?_ (by omega)
      · intro i hi
        rw [show j + 1 + i = j + (i + 1) from by omega]
        exact herr (i + 1) (by omega)
      · rw [show j + 1 + k = j + (k + 1) from by omega]
        exact hok
    simp only [fetchLoop, h0]
    rw [ih2]

theorem fetchLoop_allErr (oracle : Nat → Resp) :
    ∀ (fuel j : Nat), (∀ i, i < fuel → oracle (j + i) = .err) →
      fetchLoop oracle fuel j = (none, fuel) := by
  intro fuel
  induction fuel with
  | zero => intro j _; rfl
  | succ f ih =>
    intro j herr
    have h0 : oracle j = .err := by simpa using herr 0 (by omega)
    have ih2 : fetchLoop oracle f (j + 1) = (none, f) := by
      refine ih (j + 1) ?_
      intro i hi
      rw [show j + 1 + i = j + (i + 1) from by omega]
      exact herr (i + 1) (by omega)
    simp only [fetchLoop, h0]
    rw [ih2]

/-! ## Claim theorems -/

/-- C1, counterexample.  The claim says the visited-set membership check
and insertion act as one atomic test-and-set, so no URL ever has a GET
issued for it more than once per crawl.  In the source the check
(line 150) and the insertion (line 154) are two separate operations, and
in the interleaving where two workers for `s://h/c` both pass the check
before either inserts, both issue a GET: the crawl completes with two
fetches of the same URL. -/
theorem duplicate_fetch_race :
    (run pDup (init pDup) sDup).fetchLog.count "s://h/c" = 2 ∧
    (run pDup (init pDup) sDup).main = .returned := by
  constructor
  · rfl
  · rfl

/-- C1, amended.  The membership check and the insertion are two separate
steps in the source, so two workers can both observe a URL as unvisited
and each issue a GET for it (see `duplicate_fetch_race`).  With the check
and the insertion fused into one atomic test-and-set step — the fix the
specification itself prescribes — no URL has a GET issued for it more than
once in any interleaving of any crawl. -/
theorem atomic_test_and_set_no_duplicate_fetch (base : String)
    (maxDepth maxWorkers : Nat) (net : String → Option (String × List String))
    (s : List Nat) :
    ((runTS ⟨base, maxDepth, maxWorkers, net⟩
        (init ⟨base, maxDepth, maxWorkers, net⟩) s).fetchLog).Nodup := by
  have hinv : NoDupFetchInv (init ⟨base, maxDepth, maxWorkers, net⟩) := by
    intro u
    exact ⟨fun _ => ⟨rfl, rfl⟩, by simp [init, initFrom]⟩
  have h := runTS_inv (p := ⟨base, maxDepth, maxWorkers, net⟩)
    (noDupFetch_pres ⟨base, maxDepth, maxWorkers, net⟩) s _ hinv
  rw [List.nodup_iff_count_le_one]
  intro u
  have h2 := (h u).2
  omega

/-- C2, counterexample.  The claim says `crawl` returns only after every
transitively submitted task has completed, none being dropped or rejected
at submission.  `crawl` waits only on the seed future and then calls
`executor.shutdown(wait=True)`; in the interleaving where the main thread
sets the shutdown flag before the worker for `s://h/b` submits its child,
that submission raises `RuntimeError` and the grandchild `s://h/g` is
never fetched, although the crawl returns normally and another
interleaving of the same crawl does fetch it. -/
theorem grandchild_dropped_after_shutdown :
    (run pChain (init pChain) sChainDrop).main = .returned ∧
    (run pChain (init pChain) sChainDrop).fetchLog = ["s://h/a", "s://h/b"] ∧
    "s://h/g" ∉ (run pChain (init pChain) sChainDrop).fetchLog ∧
    (run pChain (init pChain) sChainOk).fetchLog.count "s://h/g" = 1 ∧
    (run pChain (init pChain) sChainOk).main = .returned := by
  refine ⟨rfl, rfl, ?_, rfl, rfl⟩
  decide

/-- C2, amended.  `crawl` returns only after the pool has drained: every
task that was accepted by the executor has completed when `crawl` returns.
However, a submission attempted after shutdown has begun is rejected with
`RuntimeError`, killing the submitting worker and dropping its remaining
children, so a transitively discovered task is not guaranteed to have been
accepted (see `grandchild_dropped_after_shutdown`). -/
theorem crawl_returns_only_when_drained (p : Params) (s : List Nat)
    (hret : (run p (init p) s).main = .returned) :
    (run p (init p) s).running = [] ∧ (run p (init p) s).queue = [] := by
  have hinv : ReturnedInv (init p) := by
    intro hm
    cases hm
  exact run_inv (returned_pres p) s _ hinv hret

/-- C2, witness for `crawl_returns_only_when_drained`. -/
theorem crawl_returns_only_when_drained_witness :
    (run pOne (init pOne) sOne).main = .returned ∧
    (run pOne (init pOne) sOne).running = [] ∧
    (run pOne (init pOne) sOne).queue = [] :=
  ⟨rfl, crawl_returns_only_when_drained pOne sOne rfl⟩

/-- C3, counterexample.  The claim says every raw href is resolved against
the URL of the page on which it was found.  The source resolves with
`urljoin(base_url, link['href'])` (line 166), i.e. against the seed of the
crawl: the relative href `x` found on the page `s://h/a/sub/` is fetched
as `s://h/a/x`, not as the page-relative resolution `s://h/a/sub/x`. -/
theorem links_resolved_against_base_not_page :
    urljoin "s://h/a/sub/" "x" = "s://h/a/sub/x" ∧
    urljoin "s://h/a/" "x" = "s://h/a/x" ∧
    "s://h/a/x" ∈ (run pRel (init pRel) sRel).fetchLog ∧
    "s://h/a/sub/x" ∉ (run pRel (init pRel) sRel).fetchLog ∧
    (run pRel (init pRel) sRel).main = .returned := by
  refine ⟨rfl, rfl, ?_, ?_, rfl⟩ <;> decide

/-- C3, amended.  Raw hrefs are resolved against the crawl's base (seed)
URL before the same-domain check and child scheduling: the resolution does
not depend on the page the href was found on, and it differs from
page-relative resolution whenever the referencing page sits in a
subdirectory of the seed. -/
theorem resolveLinks_ignores_page_url :
    (∀ (base pageA pageB : String) (hrefs : List String),
        resolveLinks base pageA hrefs = resolveLinks base pageB hrefs) ∧
    urljoin "s://h/a/sub/" "x" ≠ urljoin "s://h/a/" "x" := by
  refine ⟨fun _ _ _ _ => rfl, ?_⟩
  decide

/-- C4.  With the network an oracle sequence of per-attempt responses: a
first-attempt 404 issues exactly one request and stores nothing; `k`
transient failures followed by a success within the retry bound store the
successful body; `max_retries` consecutive transient failures issue
exactly `max_retries` requests and store nothing.  In the crawl, a page
entry exists for a URL exactly when its fetch both began and succeeded,
and then it holds the fetched body: URLs whose retry loop yields nothing
are absent from the returned mapping. -/
theorem fetch_retry_semantics (oracle : Nat → Resp) (maxRetries k : Nat)
    (b : String) (p : Params) (s : List Nat) (u : String) :
    (oracle 0 = .notFound → 1 ≤ maxRetries →
        fetchResult oracle maxRetries = (none, 1)) ∧
    ((∀ i, i < k → oracle i = .err) → oracle k = .ok b → k < maxRetries →
        fetchResult oracle maxRetries = (some b, k + 1)) ∧
    ((∀ i, i < maxRetries → oracle i = .err) →
        fetchResult oracle maxRetries = (none, maxRetries)) ∧
    (∀ bd, (u, bd) ∈ (run p (init p) s).pages → ∃ ls, p.net u = some (bd, ls)) ∧
    (u ∈ (run p (init p) s).fetchLog → ∀ bd ls, p.net u = some (bd, ls) →
        (u, bd) ∈ (run p (init p) s).pages) := by
  have hfp : FetchPagesInv p (run p (init p) s) := by
    refine run_inv (fetchPages_pres p) s _ ?_
    constructor
    · intro e he; cases he
    · intro u2 hu2; cases hu2
  refine ⟨?_, ?_, ?_, ?_, ?_⟩
  · intro h404 hmr
    obtain ⟨m, rfl⟩ : ∃ m, maxRetries = m + 1 :=
      ⟨maxRetries - 1, by omega⟩
    show fetchLoop oracle (m + 1) 0 = (none, 1)
    simp [fetchLoop, h404]
  · intro herr hok hlt
    exact fetchLoop_ok oracle b k 0 maxRetries
      (by intro i hi; simpa using herr i hi) (by simpa using hok) hlt
  · intro herr
    exact fetchLoop_allErr oracle maxRetries 0 (by intro i hi; simpa using herr i hi)
  · intro bd hbd
    exact hfp.1 (u, bd) hbd
  · intro hu bd ls hnet
    exact hfp.2 u hu bd ls hnet

/-- C4, witness for `fetch_retry_semantics`. -/
theorem fetch_retry_semantics_witness :
    fetchResult (fun _ => Resp.notFound) 3 = (none, 1) ∧
    fetchResult (fun i => if i = 0 then Resp.err else Resp.ok "B") 3 = (some "B", 2) ∧
    fetchResult (fun _ => Resp.err) 2 = (none, 2) ∧
    (∃ ls, pOne.net "s://h/a" = some ("B", ls)) ∧
    ("s://h/a", "B") ∈ (run pOne (init pOne) sOne).pages := by
  refine ⟨?_, ?_, ?_, ?_, ?_⟩
  · exact (fetch_retry_semantics (fun _ => Resp.notFound) 3 0 "" pOne sOne "").1
      rfl (by omega)
  · exact (fetch_retry_semantics (fun i => if i = 0 then Resp.err else Resp.ok "B")
      3 1 "B" pOne sOne "").2.1
      (by intro i hi; have h0 : i = 0 := by omega
          subst h0; rfl) rfl (by omega)
  · exact (fetch_retry_semantics (fun _ => Resp.err) 2 0 "" pOne sOne "").2.2.1
      (fun i _ => rfl)
  · exact (fetch_retry_semantics (fun _ => Resp.err) 2 0 "" pOne sOne "s://h/a").2.2.2.1
      "B" (by decide)
  · exact (fetch_retry_semantics (fun _ => Resp.err) 2 0 "" pOne sOne "s://h/a").2.2.2.2
      (by decide) "B" [] rfl

/-- C5, counterexample.  The claim says the visited set and page store are
scoped to one `crawl` invocation and a later invocation on the same
`Crawler` starts fresh with a usable pool.  `self.visited_urls` is
instance state that `crawl` never clears, and `crawl` shuts the executor
down before returning: after one successful invocation the instance keeps
the visited URLs, and the next invocation's very first `submit` raises
`RuntimeError`. -/
theorem second_crawl_not_fresh :
    crawlInvoke initCrawler pOne sOne =
      .ok ([("s://h/a", "B")], ⟨["s://h/a"], true⟩) ∧
    crawlInvoke ⟨["s://h/a"], true⟩ pOne sOne =
      .error "RuntimeError: cannot schedule new futures after shutdown" := by
  constructor
  · rfl
  · rfl

/-- C5, amended.  The page store (`pages`) is a local of each `crawl`
invocation and starts empty, but `self.visited_urls` persists across
invocations on the same instance and `crawl` shuts the executor down
before returning: a call on an already-shut-down instance raises
`RuntimeError`, and a successful call hands back an instance whose
executor is shut down and whose visited set still contains everything it
contained before. -/
theorem crawl_shuts_down_and_keeps_visited (cs : CrawlerState) (p : Params)
    (s : List Nat) :
    (cs.executorShutdown = true →
        crawlInvoke cs p s =
          .error "RuntimeError: cannot schedule new futures after shutdown") ∧
    (cs.executorShutdown = false →
        ∃ ps st, crawlInvoke cs p s = .ok (ps, st) ∧
          st.executorShutdown = true ∧ ∀ u ∈ cs.visited, u ∈ st.visited) := by
  constructor
  · intro hsh
    unfold crawlInvoke
    rw [if_pos hsh]
  · intro hsh
    refine ⟨(run p (initFrom p cs.visited) s).pages,
      ⟨(run p (initFrom p cs.visited) s).visited, true⟩, ?_, rfl, ?_⟩
    · unfold crawlInvoke
      rw [if_neg (by simp [hsh])]
    · intro u hu
      exact visited_mono_run p s (initFrom p cs.visited) u hu

/-- C5, witness for `crawl_shuts_down_and_keeps_visited`. -/
theorem crawl_shuts_down_and_keeps_visited_witness :
    (crawlInvoke ⟨["s://h/z"], true⟩ pOne sOne =
      .error "RuntimeError: cannot schedule new futures after shutdown") ∧
    (∃ ps st, crawlInvoke initCrawler pOne sOne = .ok (ps, st) ∧
      st.executorShutdown = true ∧ ∀ u ∈ initCrawler.visited, u ∈ st.visited) :=
  ⟨(crawl_shuts_down_and_keeps_visited ⟨["s://h/z"], true⟩ pOne sOne).1 rfl,
   (crawl_shuts_down_and_keeps_visited initCrawler pOne sOne).2 rfl⟩

/-- C6.  Every key of the mapping a crawl returns has the same
network-location component as the seed URL: the netloc filter guards every
child submission and the seed trivially matches itself, so no
out-of-domain URL is ever stored. -/
theorem crawl_pages_same_netloc (p : Params) (s : List Nat) (u bd : String)
    (hret : (run p (init p) s).main = .returned)
    (hmem : (u, bd) ∈ (run p (init p) s).pages) :
    netloc u = netloc p.base := by
  have hinv : DomainInv p (init p) := by
    refine ⟨?_, ?_, ?_⟩
    · intro q hq
      rcases List.mem_singleton.mp hq with rfl
      rfl
    · intro th hth; cases hth
    · intro e he; cases he
  exact (run_inv (domain_pres p) s _ hinv).2.2 (u, bd) hmem

/-- C6, witness for `crawl_pages_same_netloc`. -/
theorem crawl_pages_same_netloc_witness :
    (run pOne (init pOne) sOne).main = .returned ∧
    ("s://h/a", "B") ∈ (run pOne (init pOne) sOne).pages ∧
    netloc "s://h/a" = netloc pOne.base :=
  ⟨rfl, by decide, crawl_pages_same_netloc pOne sOne "s://h/a" "B" rfl (by decide)⟩

/-- C7.  When the seed's fetch succeeds with body `b`, a crawl at
`max_depth = 0` that returns has fetched exactly the seed once and its
result mapping is exactly `[(seed, b)]`: every link found on the seed page
is submitted at depth 1 and skipped at the depth check before any GET. -/
theorem crawl_depth_zero_only_seed (base : String) (mw : Nat)
    (net : String → Option (String × List String)) (b : String)
    (hs : List String) (s : List Nat) (hnet : net base = some (b, hs))
    (hret : (run ⟨base, 0, mw, net⟩ (init ⟨base, 0, mw, net⟩) s).main = .returned) :
    (run ⟨base, 0, mw, net⟩ (init ⟨base, 0, mw, net⟩) s).pages = [(base, b)] ∧
    (run ⟨base, 0, mw, net⟩ (init ⟨base, 0, mw, net⟩) s).fetchLog = [base] := by
  set p : Params := ⟨base, 0, mw, net⟩ with hp
  have hinv : Inv7 p b (init p) := by
    refine ⟨?_, ?_, ?_, ?_, ?_, ?_, ?_⟩
    · intro q hq hq2
      rcases List.mem_singleton.mp hq with rfl
      cases hq2
    · intro th hth; cases hth
    · simp [init, initFrom, seedQ]
    · intro hm; exact absurd rfl hm
    · intro q hq _
      rcases List.mem_singleton.mp hq with rfl
      exact ⟨rfl, rfl, rfl, rfl⟩
    · intro th hth; cases hth
    · intro hsd; cases hsd
  have hfin := run_inv (inv7_pres p b hs rfl hnet) s _ hinv
  have hsd : (run p (init p) s).seedDone = true := by
    refine hfin.2.2.2.1 ?_
    rw [hret]
    intro hx
    cases hx
  have := hfin.2.2.2.2.2.2 hsd
  exact ⟨this.2.1, this.2.2⟩

/-- C7, witness for `crawl_depth_zero_only_seed`. -/
theorem crawl_depth_zero_only_seed_witness :
    netSeed "s://h/a" = some ("B", ["c"]) ∧
    (run ⟨"s://h/a", 0, 5, netSeed⟩ (init ⟨"s://h/a", 0, 5, netSeed⟩) sSeed).main
      = .returned ∧
    (run ⟨"s://h/a", 0, 5, netSeed⟩ (init ⟨"s://h/a", 0, 5, netSeed⟩) sSeed).pages
      = [("s://h/a", "B")] ∧
    (run ⟨"s://h/a", 0, 5, netSeed⟩ (init ⟨"s://h/a", 0, 5, netSeed⟩) sSeed).fetchLog
      = ["s://h/a"] :=
  ⟨rfl, rfl, crawl_depth_zero_only_seed "s://h/a" 5 netSeed "B" ["c"] sSeed rfl rfl⟩

/-- C8.  The claim says `extract_content` is total on every input.  It is
not: on a document holding a title tag whose `.string` is `None` — e.g.
the well-formed input `<title></title>` — the expression
`soup.title.string.strip()` raises `AttributeError`, because `soup.title`
is truthy but `.string` is `None`.  On a document with no title tag at all
the guard works and the title is the empty string with the other entries
extracted normally. -/
theorem extract_content_empty_title_attribute_error :
    extract_content ⟨some none, [], [], []⟩ =
      .error "AttributeError: NoneType object has no attribute strip" ∧
    extract_content ⟨none, ["H"], ["P"], ["x"]⟩ =
      .ok (contentEntries "" ⟨none, ["H"], ["P"], ["x"]⟩) := by
  constructor
  · rfl
  · rfl

/-- C9.  For every content dictionary `extract_content` produces, the text
pieces `is_relevant` assembles are exactly the headings and none of the
extracted paragraph text: the extractor stores paragraphs under the key
`'paragraph'` (singular), the relevance filter reads `'paragraphs'`
(plural), and that lookup always misses. -/
theorem relevance_text_misses_paragraphs (soup : Soup) (content : ContentDict)
    (h : extract_content soup = .ok content) :
    relevanceParts content = soup.headings ∧
    getList content "paragraphs" = [] ∧
    getList content "paragraph" = soup.paragraphTexts := by
  cases ht : soup.title with
  | none =>
    rw [extract_content, ht] at h
    injection h with h2
    rw [← h2]
    refine ⟨?_, rfl, rfl⟩
    show getList (contentEntries "" soup) "headings" ++
      getList (contentEntries "" soup) "paragraphs" = soup.headings
    rw [show getList (contentEntries "" soup) "headings" = soup.headings from rfl,
        show getList (contentEntries "" soup) "paragraphs" = [] from rfl]
    exact List.append_nil _
  | some t =>
    cases t with
    | none =>
      rw [extract_content, ht] at h
      cases h
    | some str =>
      rw [extract_content, ht] at h
      injection h with h2
      rw [← h2]
      refine ⟨?_, rfl, rfl⟩
      show getList (contentEntries str.trim soup) "headings" ++
        getList (contentEntries str.trim soup) "paragraphs" = soup.headings
      rw [show getList (contentEntries str.trim soup) "headings" = soup.headings from rfl,
          show getList (contentEntries str.trim soup) "paragraphs" = [] from rfl]
      exact List.append_nil _

/-- C9, witness for `relevance_text_misses_paragraphs`. -/
theorem relevance_text_misses_paragraphs_witness :
    relevanceParts (contentEntries "" ⟨none, ["H1"], ["P1"], []⟩) = ["H1"] ∧
    getList (contentEntries "" ⟨none, ["H1"], ["P1"], []⟩) "paragraphs" = [] ∧
    getList (contentEntries "" ⟨none, ["H1"], ["P1"], []⟩) "paragraph" = ["P1"] :=
  relevance_text_misses_paragraphs ⟨none, ["H1"], ["P1"], []⟩ _ rfl

/-- C10.  A task arriving at depth greater than `max_depth` is skipped
without being inserted into the visited set (or touching any other shared
state, beyond its own removal from the pool), and a URL first seen beyond
the depth bound can still be fetched later through a path within the
bound: in the concrete diamond crawl at `max_depth = 1`, the depth-2 task
for `s://h/x` dies at its check leaving `s://h/x` unvisited, and the
depth-1 task then fetches it exactly once. -/
theorem depth_exceeded_skip_preserves_visited (p : Params) (c : Config)
    (k : Nat) (th : Worker) (hth : c.running[k]? = some th)
    (hph : th.phase = .checking) (hdep : p.maxDepth < th.task.depth) :
    ((step p c (k + 2)).visited = c.visited ∧
     (step p c (k + 2)).fetchLog = c.fetchLog ∧
     (step p c (k + 2)).pages = c.pages ∧
     (step p c (k + 2)).running = c.running.eraseIdx k) ∧
    ((run pDia (init pDia) sDiaSkip).visited = ["s://h/b", "s://h/a"] ∧
     (run pDia (init pDia) sDiaSkip).queue = [] ∧
     (run pDia (init pDia) sDiaSkip).running =
       [⟨⟨"s://h/x", 1⟩, .checking, false⟩] ∧
     (run pDia (init pDia) (sDiaSkip ++ sDiaRest)).fetchLog.count "s://h/x" = 1 ∧
     (run pDia (init pDia) (sDiaSkip ++ sDiaRest)).main = .returned) := by
  constructor
  · have hstep : step p c (k + 2) = finishAt c k th.isSeed := by
      show (match c.running[k]? with
        | none => c
        | some th => doWorker p c k th) = finishAt c k th.isSeed
      rw [hth]
      simp only [doWorker, hph]
      rw [if_pos (Or.inl hdep)]
    rw [hstep]
    exact ⟨rfl, rfl, rfl, rfl⟩
  · exact ⟨rfl, rfl, rfl, rfl, rfl⟩

/-- C10, witness for `depth_exceeded_skip_preserves_visited`. -/
theorem depth_exceeded_skip_preserves_visited_witness :
    (step pDia (Config.mk ["v"] [] false []
        [Worker.mk (CrawlTask.mk "s://h/u" 5) .checking false]
        false .awaitSeed []) (0 + 2)).visited = ["v"] ∧
    (step pDia (Config.mk ["v"] [] false []
        [Worker.mk (CrawlTask.mk "s://h/u" 5) .checking false]
        false .awaitSeed []) (0 + 2)).running = [] :=
  have h := depth_exceeded_skip_preserves_visited pDia
    (Config.mk ["v"] [] false []
      [Worker.mk (CrawlTask.mk "s://h/u" 5) .checking false]
      false .awaitSeed [])
    0 (Worker.mk (CrawlTask.mk "s://h/u" 5) .checking false) rfl rfl (by decide)
  ⟨h.1.1, h.1.2.2.2⟩

end Rufus
